import Mathlib

/-!
# Shallow embedding of the end-of-block matching driver (modules/market/endblocker.go),
of the market parameters (modules/market/internal/types/params.go) and of the whitelist
store of the asset keeper (modules/asset/keeper.go)

Conventions of the embedding.

* Go `int64` / `int` values are `Int`.  The arithmetic of the embedded functions is the
  mathematical one: amounts are token quantities, and wrap-around of `int64` as well as the
  out-of-range panics of the decimal library (`Int64() out of bound`, `Int overflow`,
  negative coin amounts) are outside the model.
* `sdk.Dec` is the fixed-point decimal of the cosmos-sdk (types/decimal.go): a `big.Int`
  holding the value multiplied by `10^18`.  `Dec.raw` is that integer.
* Go pointers to orders are values here; a function that mutates an order returns the new
  value.  Panics raised by the embedded code itself are `none` / `Except.error`.
* Calls on keeper interfaces (`bxKeeper`, `feeK`, `orderKeeper`) are recorded, in program
  order, in a call log.
-/

namespace Market

/-! ## sdk.Dec -/

/-- The type `sdk.Dec`: `raw` is the underlying `big.Int`, the value times `10^18`. -/
structure Dec where
  raw : Int
  deriving DecidableEq, Repr

/-- The non-negative branch of `chopPrecisionAndRound`: `QuoRem` by
`precisionReuse = 10^18` (on a non-negative argument the truncated `QuoRem` is `/` and `%`),
then the comparison of the remainder with `fivePrecision = 5 * 10^17`; on a tie the quotient is rounded to the even neighbour
(`quo.Bit(0) == 0`). -/
def chopRoundNonneg (d : Int) : Int :=
  let quo := d / 1000000000000000000
  let rem := d % 1000000000000000000
  if rem = 0 then quo
  else if rem < 500000000000000000 then quo
  else if rem > 500000000000000000 then quo + 1
  else if quo % 2 = 0 then quo
  else quo + 1

/-- The function `chopPrecisionAndRound` of types/decimal.go: a negative argument is negated,
chopped and negated back. -/
def chopPrecisionAndRound (d : Int) : Int :=
  if d < 0 then -(chopRoundNonneg (-d)) else chopRoundNonneg d

/-- The function `chopPrecisionAndTruncate`: `d.Quo(d, precisionReuse)`, the truncated
(toward zero) quotient of `big.Int`. -/
def chopPrecisionAndTruncate (d : Int) : Int :=
  Int.tdiv d 1000000000000000000

/-- The constructor `sdk.NewDec(i)`. -/
def NewDec (i : Int) : Dec := ⟨i * 1000000000000000000⟩

/-- The method `Dec.Mul`: multiply the raw integers, then `chopPrecisionAndRound`. -/
def Dec.Mul (d d2 : Dec) : Dec := ⟨chopPrecisionAndRound (d.raw * d2.raw)⟩

/-- The method `Dec.MulInt`: multiply the raw integer by an integer, no rounding. -/
def Dec.MulInt (d : Dec) (i : Int) : Dec := ⟨d.raw * i⟩

/-- The method `Dec.Quo`: multiply by the precision twice, truncated `big.Int` quotient,
then `chopPrecisionAndRound`. -/
def Dec.Quo (d d2 : Dec) : Dec :=
  ⟨chopPrecisionAndRound
    (Int.tdiv (d.raw * 1000000000000000000 * 1000000000000000000) d2.raw)⟩

/-- The method `Dec.RoundInt64`. -/
def Dec.RoundInt64 (d : Dec) : Int := chopPrecisionAndRound d.raw

/-- The method `Dec.TruncateInt64`. -/
def Dec.TruncateInt64 (d : Dec) : Int := chopPrecisionAndTruncate d.raw

/-- The method `Dec.IsZero`. -/
def Dec.IsZero (d : Dec) : Bool := decide (d.raw = 0)

/-! ## Orders -/

/-- An account address (`sdk.AccAddress`, a byte string). -/
abbrev AccAddress := List Nat

/-- Modelled from the spec: the constants `types.BUY` (= `types.BID`) and `types.SELL`
(= `types.ASK`) of the order side, `side ∈ {BUY, SELL}`; their declaration is not among the
sources. -/
inductive Side where
  | BUY
  | SELL
  deriving DecidableEq, Repr

/-- Modelled from the spec: the constants `types.GTE` and `types.IOC`,
`time_in_force ∈ {GTE, IOC}`; their declaration is not among the sources. -/
inductive TimeInForce where
  | GTE
  | IOC
  deriving DecidableEq, Repr

/-- Modelled from the spec: the struct `types.Order` (declared in types/order.go, which is
not among the sources), with the attributes of the data model and the field names used by
endblocker.go. -/
structure Order where
  Sender : AccAddress
  Sequence : Nat
  TradingPair : String
  Price : Dec
  Quantity : Int
  Side : Side
  TimeInForce : TimeInForce
  Height : Int
  FrozenFee : Int
  ExistBlocks : Int
  LeftStock : Int
  Freeze : Int
  DealStock : Int
  DealMoney : Int
  deriving DecidableEq, Repr

/-- Modelled from the spec: `Order.OrderID()`, the identity `{sender_address,
sequence_number}` of an order. -/
def Order.OrderID (o : Order) : AccAddress × Nat := (o.Sender, o.Sequence)

/-- The function `notEnoughMoney`: true when a buyer's frozen money is not enough to buy
`LeftStock`. -/
def notEnoughMoney (order : Order) : Bool :=
  decide (order.Side = Side.BUY) &&
    decide (order.Freeze < (order.Price.Mul (NewDec order.LeftStock)).RoundInt64)

/-- The method `WrappedOrder.GetAmount`. -/
def GetAmount (order : Order) : Int :=
  if notEnoughMoney order then 0 else order.LeftStock

/-! ## Deal -/

/-- A call on the balance keeper (`types.ExpectedBankxKeeper`) or on the fee keeper
(`types.ExpectedChargeFeeKeeper`); the coins of a call are a single coin `(denom, amount)`. -/
inductive KeeperCall where
  | UnFreezeCoins (addr : AccAddress) (denom : String) (amount : Int)
  | SendCoins (fromAddr toAddr : AccAddress) (denom : String) (amount : Int)
  | SubtractFeeAndCollectFee (addr : AccAddress) (amount : Int)
  deriving DecidableEq, Repr

/-- The changed-order map `map[string]*types.Order`, as an association list on order ids. -/
abbrev OrderMap := List ((AccAddress × Nat) × Order)

/-- The map assignment `m[k] = v`: overwrite the entry of `k`, or add one. -/
def OrderMap.assign : OrderMap → (AccAddress × Nat) → Order → OrderMap
  | [], k, v => [(k, v)]
  | (k0, v0) :: rest, k, v =>
    if k0 = k then (k, v) :: rest else (k0, v0) :: OrderMap.assign rest k v

/-- The struct `InfoForDeal`: the per-pass context. `calls` is the log of the calls made on
`bxKeeper`; `dataHash` and `context` play no part in the settlement. -/
structure InfoForDeal where
  calls : List KeeperCall
  changedOrders : OrderMap
  lastPrice : Dec
  deriving DecidableEq, Repr

/-- Go `strings.Split(s, sep)` for a one-character separator, on the characters of `s`;
`acc` holds the current piece, reversed. -/
def splitAux (sep : Char) : List Char → List Char → List String
  | [], acc => [String.mk acc.reverse]
  | c :: cs, acc =>
    if c = sep then String.mk acc.reverse :: splitAux sep cs []
    else splitAux sep cs (c :: acc)

/-- Go `strings.Split(s, "/")`. -/
def stringsSplit (s : String) : List String := splitAux '/' s.data []

/-- What one call of `Deal` leaves: the two orders behind the receiver and the argument,
and the per-pass context. -/
structure DealResult where
  wo : Order
  other : Order
  info : InfoForDeal
  deriving DecidableEq, Repr

/-- The method `WrappedOrder.Deal` on the receiver's order `wo`, the other side's order
`other` (a different order: the two pointers do not alias) and the shared context.
`stockAndMoney[1]` panics when the trading pair has no separator: `none`. -/
def Deal (wo other : Order) (info : InfoForDeal) (amount : Int) (price : Dec) :
    Option DealResult :=
  let buyer := if wo.Side = Side.SELL then other else wo
  let seller := if wo.Side = Side.SELL then wo else other
  match stringsSplit buyer.TradingPair with
  | stock :: money :: _ =>
    let moneyAmount := (price.MulInt amount).TruncateInt64
    let buyer1 : Order :=
      { buyer with
        LeftStock := buyer.LeftStock - amount
        Freeze := buyer.Freeze - moneyAmount
        DealStock := buyer.DealStock + amount
        DealMoney := buyer.DealMoney + moneyAmount }
    let seller1 : Order :=
      { seller with
        LeftStock := seller.LeftStock - amount
        Freeze := seller.Freeze - amount
        DealStock := seller.DealStock + amount
        DealMoney := seller.DealMoney + moneyAmount }
    some
      { wo := if wo.Side = Side.SELL then seller1 else buyer1
        other := if wo.Side = Side.SELL then buyer1 else seller1
        info :=
          { calls := info.calls ++
              [ KeeperCall.UnFreezeCoins seller.Sender stock amount,
                KeeperCall.SendCoins seller.Sender buyer.Sender stock amount,
                KeeperCall.UnFreezeCoins buyer.Sender money moneyAmount,
                KeeperCall.SendCoins buyer.Sender seller.Sender money moneyAmount ]
            changedOrders :=
              (info.changedOrders.assign buyer.OrderID buyer1).assign seller.OrderID seller1
            lastPrice := price } }
  | _ => none

/-! ## The balance ledger -/

/-- Modelled from the spec: the balance keeper behind `UnFreezeCoins` and `SendCoins`
(bankx, not among the sources), as a ledger of free and frozen balances per account and
denomination, and the fee collector behind `SubtractFeeAndCollectFee`. -/
structure Ledger where
  free : AccAddress → String → Int
  frozen : AccAddress → String → Int
  collected : Int

/-- The denomination `dex.CET`. -/
def CET : String := "cet"

/-- Modelled from the spec: the effect of one keeper call on the ledger. `UnFreezeCoins`
releases escrow (frozen to free), `SendCoins` transfers free balance, and
`SubtractFeeAndCollectFee` debits the account to the fee collector. -/
def Ledger.step (l : Ledger) : KeeperCall → Ledger
  | KeeperCall.UnFreezeCoins addr denom amount =>
    { l with
      free := fun a d => if a = addr ∧ d = denom then l.free a d + amount else l.free a d
      frozen := fun a d => if a = addr ∧ d = denom then l.frozen a d - amount else l.frozen a d }
  | KeeperCall.SendCoins fromAddr toAddr denom amount =>
    let free1 : AccAddress → String → Int :=
      fun a d => if a = fromAddr ∧ d = denom then l.free a d - amount else l.free a d
    { l with
      free := fun a d => if a = toAddr ∧ d = denom then free1 a d + amount else free1 a d }
  | KeeperCall.SubtractFeeAndCollectFee addr amount =>
    { l with
      free := fun a d => if a = addr ∧ d = CET then l.free a d - amount else l.free a d
      collected := l.collected + amount }

/-- The ledger after a sequence of keeper calls, in order. -/
def Ledger.run (l : Ledger) (calls : List KeeperCall) : Ledger :=
  calls.foldl Ledger.step l

/-- What an account holds of a denomination: free plus frozen. -/
def Ledger.holdings (l : Ledger) (a : AccAddress) (d : String) : Int :=
  l.free a d + l.frozen a d

/-! ## The price band of runMatch -/

/-- The value `lowPrice` of `runMatch`:
`midPrice.Mul(sdk.NewDec(int64(100 - ratio))).Quo(sdk.NewDec(100))`. -/
def lowPrice (midPrice : Dec) (ratio : Int) : Dec :=
  (midPrice.Mul (NewDec (100 - ratio))).Quo (NewDec 100)

/-- The value `highPrice` of `runMatch`:
`midPrice.Mul(sdk.NewDec(int64(100 + ratio))).Quo(sdk.NewDec(100))`. -/
def highPrice (midPrice : Dec) (ratio : Int) : Dec :=
  (midPrice.Mul (NewDec (100 + ratio))).Quo (NewDec 100)

/-! ## Rounding modes, as the specification words them -/

/-- Rounding of `n / 10^18` to the nearest integer, a tie going away from zero. -/
def roundHalfAwayFromZero (n : Int) : Int :=
  if 0 ≤ n then (2 * n + 1000000000000000000) / 2000000000000000000
  else -((2 * (-n) + 1000000000000000000) / 2000000000000000000)

/-- Rounding of `n / 10^18` to the nearest integer, a tie going to the even neighbour;
`n / 10^18` is the floor and `n % 10^18` the non-negative remainder. -/
def roundHalfEven (n : Int) : Int :=
  if 2 * (n % 1000000000000000000) < 1000000000000000000 then n / 1000000000000000000
  else if 2 * (n % 1000000000000000000) > 1000000000000000000 then
    n / 1000000000000000000 + 1
  else if (n / 1000000000000000000) % 2 = 0 then n / 1000000000000000000
  else n / 1000000000000000000 + 1

/-- An integer `m` is `n / 10^18` truncated toward zero: it lies between zero and the
quotient, less than one away from it. -/
def IsTruncTowardZero (n m : Int) : Prop :=
  (0 ≤ n → m * 1000000000000000000 ≤ n ∧ n < (m + 1) * 1000000000000000000) ∧
  (n ≤ 0 → n ≤ m * 1000000000000000000 ∧ (m - 1) * 1000000000000000000 < n)

/-! ## Write-back and removal -/

/-- Modelled from the spec: the cancel reasons `types.CancelOrderBy...`,
`DelReason ∈ {IocType, AllFilled, NoEnoughMoney, GteTimeOut, NotKnown}`. -/
inductive DelReason where
  | CancelOrderByIocType
  | CancelOrderByAllFilled
  | CancelOrderByNoEnoughMoney
  | CancelOrderByGteTimeOut
  | CancelOrderByNotKnow
  deriving DecidableEq, Repr

/-- The struct `types.CancelOrderInfo`, with the fields that endblocker.go fills. -/
structure CancelOrderInfo where
  OrderID : AccAddress × Nat
  TradingPair : String
  Height : Int
  Side : Side
  Price : Dec
  DelReason : DelReason
  UsedCommission : Int
  LeftStock : Int
  RemainAmount : Int
  DealStock : Int
  DealMoney : Int
  deriving DecidableEq, Repr

/-- Modelled from the spec: `Order.CalOrderFee` (types/order.go, not among the sources):
the fee of an order without fills is `fee_for_zero_deal`; the fee of an order with fills is
left as the parameter `filledFee`. -/
def CalOrderFee (filledFee : Order → Dec) (order : Order) (feeForZeroDeal : Int) : Dec :=
  if order.DealStock > 0 then filledFee order else NewDec feeForZeroDeal

/-- A panic of the embedded code. -/
inductive Panic where
  | indexOutOfRange
  | feeError (err : String)
  | nilDereference
  deriving DecidableEq, Repr

/-- The lookup `m[k]` in an order map. -/
def OrderMap.find : OrderMap → (AccAddress × Nat) → Option Order
  | [], _ => none
  | (k0, v0) :: rest, k => if k0 = k then some v0 else OrderMap.find rest k

/-- Deletion of the entries of a key from an order map. -/
def OrderMap.delete : OrderMap → (AccAddress × Nat) → OrderMap
  | [], _ => []
  | (k0, v0) :: rest, k =>
    if k0 = k then OrderMap.delete rest k else (k0, v0) :: OrderMap.delete rest k

/-- The state the driver works on: the order book of one market behind `orderKeeper`, the
log of the calls made on the balance and fee keepers, the log of the calls made on the
order keeper (`(true, o)` for `Add(o)`, `(false, o)` for `Remove(o)`), and the messages
handed to `fillMsgs`. -/
structure DriverState where
  book : OrderMap
  calls : List KeeperCall
  keeperOps : List (Bool × Order)
  msgs : List CancelOrderInfo
  deriving DecidableEq, Repr

/-- Modelled from the spec: `orderKeeper.Add`, insert or overwrite by `OrderID`; the call is
logged as `(true, order)`. -/
def DriverState.Add (st : DriverState) (order : Order) : DriverState :=
  { st with
    book := st.book.assign order.OrderID order
    keeperOps := st.keeperOps ++ [(true, order)] }

/-- Modelled from the spec: `orderKeeper.Remove`, idempotent delete by `OrderID`; the call is
logged as `(false, order)`. -/
def DriverState.Remove (st : DriverState) (order : Order) : DriverState :=
  { st with
    book := st.book.delete order.OrderID
    keeperOps := st.keeperOps ++ [(false, order)] }

/-- The function `unfreezeCoinsForOrder`. The fee keeper is the parameter `feeK`: given the
calls made so far, the account and the amount, it answers `some err` for a failure. -/
def unfreezeCoinsForOrder (feeK : List KeeperCall → AccAddress → Int → Option String)
    (filledFee : Order → Dec) (calls : List KeeperCall) (order : Order)
    (feeForZeroDeal : Int) : Except Panic (List KeeperCall) :=
  match stringsSplit order.TradingPair with
  | stock :: money :: _ =>
    let frozenToken := if order.Side = Side.BUY then money else stock
    let calls1 := calls ++ [KeeperCall.UnFreezeCoins order.Sender frozenToken order.Freeze]
    if order.FrozenFee ≠ 0 then
      let calls2 := calls1 ++ [KeeperCall.UnFreezeCoins order.Sender CET order.FrozenFee]
      let actualFee := CalOrderFee filledFee order feeForZeroDeal
      match feeK calls2 order.Sender actualFee.RoundInt64 with
      | some err => Except.error (Panic.feeError err)
      | none =>
        Except.ok
          (calls2 ++ [KeeperCall.SubtractFeeAndCollectFee order.Sender actualFee.RoundInt64])
    else Except.ok calls1
  | _ => Except.error Panic.indexOutOfRange

/-- The function `removeOrder`: unfreeze the frozen token in the order and remove it from
the market. -/
def removeOrder (feeK : List KeeperCall → AccAddress → Int → Option String)
    (filledFee : Order → Dec) (st : DriverState) (order : Order) (feeForZeroDeal : Int) :
    Except Panic DriverState :=
  if order.Freeze ≠ 0 ∨ order.FrozenFee ≠ 0 then
    match unfreezeCoinsForOrder feeK filledFee st.calls order feeForZeroDeal with
    | Except.error p => Except.error p
    | Except.ok calls1 => Except.ok (DriverState.Remove { st with calls := calls1 } order)
  else Except.ok (DriverState.Remove st order)

/-- The function `sendOrderMsg`: the message it hands to `fillMsgs`. -/
def sendOrderMsg (filledFee : Order → Dec) (order : Order) (height : Int)
    (feeForZeroDeal : Int) : CancelOrderInfo :=
  { OrderID := order.OrderID
    TradingPair := order.TradingPair
    Side := order.Side
    Height := height
    Price := order.Price
    UsedCommission := (CalOrderFee filledFee order feeForZeroDeal).RoundInt64
    LeftStock := order.LeftStock
    RemainAmount := order.Freeze
    DealStock := order.DealStock
    DealMoney := order.DealMoney
    DelReason :=
      if order.TimeInForce = TimeInForce.IOC then DelReason.CancelOrderByIocType
      else if order.LeftStock = 0 then DelReason.CancelOrderByAllFilled
      else if notEnoughMoney order then DelReason.CancelOrderByNoEnoughMoney
      else DelReason.CancelOrderByNotKnow }

/-- The body of the write-back loop of `EndBlocker` for one changed order:
`orderKeeper.Add`, then, for a terminal order, `sendOrderMsg` when the topic is subscribed
and `removeOrder`. -/
def writeBackOrder (feeK : List KeeperCall → AccAddress → Int → Option String)
    (filledFee : Order → Dec) (subscribed : Bool) (height feeForZeroDeal : Int)
    (st : DriverState) (order : Order) : Except Panic DriverState :=
  let st1 := st.Add order
  if order.TimeInForce = TimeInForce.IOC ∨ order.LeftStock = 0 ∨ notEnoughMoney order = true then
    let st2 :=
      if subscribed then
        { st1 with msgs := st1.msgs ++ [sendOrderMsg filledFee order height feeForZeroDeal] }
      else st1
    removeOrder feeK filledFee st2 order feeForZeroDeal
  else Except.ok st1

/-- The write-back loop of `EndBlocker` over the changed orders of one market, in the
order in which the map is enumerated. -/
def writeBack (feeK : List KeeperCall → AccAddress → Int → Option String)
    (filledFee : Order → Dec) (subscribed : Bool) (height feeForZeroDeal : Int) :
    DriverState → List Order → Except Panic DriverState
  | st, [] => Except.ok st
  | st, order :: rest =>
    match writeBackOrder feeK filledFee subscribed height feeForZeroDeal st order with
    | Except.error p => Except.error p
    | Except.ok st1 => writeBack feeK filledFee subscribed height feeForZeroDeal st1 rest

/-! ## Expiry sweep -/

/-- The function `filterOldOrders`: the loop appends to `orders` every order it does not
skip. -/
def filterOldOrders (oldOrders : List Order) (currHeight lifeTime : Int) : List Order :=
  oldOrders.foldl
    (fun orders order =>
      if currHeight - lifeTime < order.ExistBlocks then orders else orders ++ [order])
    []

/-! ## The day-boundary check -/

/-- The civil date `(year, month, day)` of the proleptic Gregorian calendar for a number of
days since 1970-01-01, which is what Go `Time.Date()` computes. -/
def civilFromDays (z0 : Int) : Int × Int × Int :=
  let z := z0 + 719468
  let era := z / 146097
  let doe := z % 146097
  let yoe := (doe - doe / 1460 + doe / 36524 - doe / 146096) / 365
  let doy := doe - (365 * yoe + yoe / 4 - yoe / 100)
  let mp := (5 * doy + 2) / 153
  let d := doy - (153 * mp + 2) / 5 + 1
  let m := if mp < 10 then mp + 3 else mp - 9
  let y := yoe + era * 400
  (if m ≤ 2 then y + 1 else y, m, d)

/-- Go `time.Unix(sec, 0).Date()`: the calendar date of an instant in the local zone;
`zone t` is the offset of local time from UTC, in seconds, at the instant `t`. -/
def dateOf (zone : Int → Int) (sec : Int) : Int × Int × Int :=
  civilFromDays ((sec + zone sec) / 86400)

/-- Go `time.Unix(sec, 0).Day()`: the day of the month. -/
def dayOf (zone : Int → Int) (sec : Int) : Int := (dateOf zone sec).2.2

/-- Go `time.Unix(sec, 0).Second()`: the second within the minute. -/
def secondOf (zone : Int → Int) (sec : Int) : Int := (sec + zone sec) % 60

/-- The flag `needRemove` of `EndBlocker`; `integrationNet` is
`strings.Contains(chainID, IntegrationNetSubString)`. -/
def needRemove (zone : Int → Int) (integrationNet : Bool) (recordTime currTime : Int) : Bool :=
  if !integrationNet then
    if dayOf zone recordTime ≠ dayOf zone currTime then true else false
  else
    if secondOf zone recordTime ≠ secondOf zone currTime then true else false

/-! ## Concrete orders -/

/-- The bid of scenario S3: BUY, price 10, quantity 10, left_stock 10, freeze 95. -/
def s3Bid : Order :=
  { Sender := [1], Sequence := 1, TradingPair := "abc/usd", Price := NewDec 10,
    Quantity := 10, Side := Side.BUY, TimeInForce := TimeInForce.GTE, Height := 7,
    FrozenFee := 1000000, ExistBlocks := 0, LeftStock := 10, Freeze := 95, DealStock := 0,
    DealMoney := 0 }

/-- The ask of scenario S3: SELL, price 10, quantity 4, left_stock 4, freeze 4. -/
def s3Ask : Order :=
  { Sender := [2], Sequence := 1, TradingPair := "abc/usd", Price := NewDec 10,
    Quantity := 4, Side := Side.SELL, TimeInForce := TimeInForce.GTE, Height := 8,
    FrozenFee := 1000000, ExistBlocks := 0, LeftStock := 4, Freeze := 4, DealStock := 0,
    DealMoney := 0 }

/-- A per-pass context before any fill. -/
def emptyInfo : InfoForDeal := { calls := [], changedOrders := [], lastPrice := NewDec 0 }

/-- A bid at price 0.5 for 5 units with 2 units of money frozen: `0.5 * 5 = 2.5`. -/
def halfPriceBid : Order :=
  { Sender := [1], Sequence := 2, TradingPair := "abc/usd", Price := ⟨500000000000000000⟩,
    Quantity := 5, Side := Side.BUY, TimeInForce := TimeInForce.GTE, Height := 7,
    FrozenFee := 1000000, ExistBlocks := 0, LeftStock := 5, Freeze := 2, DealStock := 0,
    DealMoney := 0 }

/-- The bid of scenario S3 after the fill of 4 at price 10: left_stock 6, freeze 55. -/
def s3BidAfter : Order :=
  { s3Bid with LeftStock := 6, Freeze := 55, DealStock := 4, DealMoney := 40 }

/-- The ask of scenario S3 after the fill of 4 at price 10: fully filled. -/
def s3AskAfter : Order :=
  { s3Ask with LeftStock := 0, Freeze := 0, DealStock := 4, DealMoney := 40 }

/-- A GTE bid, filled in part, whose escrow covers the rest: left_stock 6, freeze 60. -/
def liveBid : Order :=
  { s3Bid with Sequence := 3, LeftStock := 6, Freeze := 60, DealStock := 4, DealMoney := 40 }

/-- An IOC bid that is under-frozen after a fill: left_stock 6, freeze 55. -/
def iocUnderFrozenBid : Order :=
  { s3BidAfter with Sequence := 4, TimeInForce := TimeInForce.IOC }

/-- An unfilled GTE bid that froze no fee: freeze 95, frozen_fee 0. -/
def noFeeBid : Order :=
  { s3Bid with Sequence := 6, FrozenFee := 0 }

/-- A fee keeper that never fails. -/
def feeNeverFails : List KeeperCall → AccAddress → Int → Option String := fun _ _ _ => none

/-- A fee keeper that always fails. -/
def feeAlwaysFails : List KeeperCall → AccAddress → Int → Option String :=
  fun _ _ _ => some "insufficient coins"

/-- A fee of zero for orders with fills. -/
def zeroFilledFee : Order → Dec := fun _ => NewDec 0

/-- The driver state with an empty book and empty logs. -/
def emptyDriver : DriverState := { book := [], calls := [], keeperOps := [], msgs := [] }

/-- The zone of UTC. -/
def utc : Int → Int := fun _ => 0

/-! ## Parameters (modules/market/internal/types/params.go) -/

/-- The struct `Params`. -/
structure Params where
  CreateMarketFee : Int
  FixedTradeFee : Int
  MarketMinExpiredTime : Int
  GTEOrderLifetime : Int
  GTEOrderFeatureFeeByBlocks : Int
  MaxExecutedPriceChangeRatio : Int
  MarketFeeRate : Int
  MarketFeeMin : Int
  FeeForZeroDeal : Int
  deriving DecidableEq, Repr

/-- Go `time.Hour`: a `time.Duration`, the number of nanoseconds in an hour. -/
def timeHour : Int := 60 * (60 * (1000 * (1000 * 1000)))

/-- The constant `DefaultMarketMinExpiredTime = 7 * 24 * time.Hour`. -/
def DefaultMarketMinExpiredTime : Int := 7 * 24 * timeHour

/-- The function `DefaultParams`, with the constants of params.go. -/
def DefaultParams : Params :=
  { CreateMarketFee := 1000000000000
    FixedTradeFee := 1000000
    MarketMinExpiredTime := DefaultMarketMinExpiredTime
    GTEOrderLifetime := 10000
    GTEOrderFeatureFeeByBlocks := 6000000
    MaxExecutedPriceChangeRatio := 25
    MarketFeeRate := 10
    MarketFeeMin := 1000000
    FeeForZeroDeal := 1000000 }

/-- The method `Params.ValidateGenesis`: `none` is the `nil` error, `some msg` an error. -/
def ValidateGenesis (p : Params) : Option String :=
  if p.CreateMarketFee ≤ 0 then some "CreateMarketFee must be a positive number"
  else if p.FixedTradeFee < 0 then some "FixedTradeFee must be a valid sdk.Coins"
  else if p.MaxExecutedPriceChangeRatio < 0 ∨ p.MarketFeeRate < 0 ∨ p.MarketFeeMin < 0 ∨
      p.FeeForZeroDeal < 0 ∨ p.GTEOrderLifetime < 0 ∨ p.GTEOrderFeatureFeeByBlocks < 0 then
    some "params must be positive"
  else none

/-! ## Fill messages -/

/-- The struct `types.FillOrderInfo`, with the fields that endblocker.go fills. -/
structure FillOrderInfo where
  OrderID : AccAddress × Nat
  Height : Int
  TradingPair : String
  Side : Side
  Price : Dec
  LeftStock : Int
  Freeze : Int
  DealStock : Int
  DealMoney : Int
  CurrStock : Int
  CurrMoney : Int
  deriving DecidableEq, Repr

/-- A Go `map[string]int64` on order ids, as an association list. -/
abbrev IntMap := List ((AccAddress × Nat) × Int)

/-- The map assignment `m[k] = v`. -/
def IntMap.assign : IntMap → (AccAddress × Nat) → Int → IntMap
  | [], k, v => [(k, v)]
  | (k0, v0) :: rest, k, v =>
    if k0 = k then (k, v) :: rest else (k0, v0) :: IntMap.assign rest k v

/-- The map read `m[k]`: the zero value for a missing key. -/
def IntMap.get : IntMap → (AccAddress × Nat) → Int
  | [], _ => 0
  | (k0, v0) :: rest, k => if k0 = k then v0 else IntMap.get rest k

/-- The function `sendFillMsg`, over the entries of `ordersForUpdate` in the order in which
the map is enumerated; the result is the list of messages handed to `fillMsgs`. -/
def sendFillMsg (orderOldDeal orderOldMoneys : IntMap) (height : Int) :
    OrderMap → List FillOrderInfo
  | [] => []
  | (id, order) :: rest =>
    let oldDeal := orderOldDeal.get id
    let oldMoney := orderOldMoneys.get id
    if order.DealStock - oldDeal = 0 ∨ order.DealMoney - oldMoney = 0 then
      sendFillMsg orderOldDeal orderOldMoneys height rest
    else
      { OrderID := id
        Height := height
        TradingPair := order.TradingPair
        Side := order.Side
        Price := order.Price
        LeftStock := order.LeftStock
        Freeze := order.Freeze
        DealStock := order.DealStock
        DealMoney := order.DealMoney
        CurrStock := order.DealStock - oldDeal
        CurrMoney := order.DealMoney - oldMoney } ::
        sendFillMsg orderOldDeal orderOldMoneys height rest

/-! ## The matching pass of one market -/

/-- One fill decided by the matcher: `bid.Deal(ask, amount, price)`. -/
structure Fill where
  bid : AccAddress × Nat
  ask : AccAddress × Nat
  amount : Int
  price : Dec
  deriving DecidableEq, Repr

/-- Modelled from the spec: the effect of `match.Match` (modules/market/match, not among the
sources) on the wrapped orders it is given: for each fill it decides, in turn, one call of
`Deal` on the bid with the ask.  `bids` and `asks` hold the current values of the orders of
`bidList` and `askList`; a fill naming an order that is not in its list is no fill.  The
last component logs the fills executed. -/
def applyFills : List Fill → OrderMap → OrderMap → InfoForDeal → List Fill →
    Option (OrderMap × OrderMap × InfoForDeal × List Fill)
  | [], bids, asks, info, deals => some (bids, asks, info, deals)
  | f :: rest, bids, asks, info, deals =>
    match bids.find f.bid, asks.find f.ask with
    | some b, some a =>
      match Deal b a info f.amount f.price with
      | none => none
      | some r =>
        applyFills rest (bids.assign f.bid r.wo) (asks.assign f.ask r.other) r.info
          (deals ++ [f])
    | _, _ => applyFills rest bids asks info deals

/-- Modelled from the spec: `orderKeeper.GetMatchingCandidates`, every order of the pair. -/
def GetMatchingCandidates (book : OrderMap) : List Order := book.map Prod.snd

/-- Modelled from the spec: `orderKeeper.GetOrdersAtHeight(h)`, the orders whose height is
`h`. -/
def GetOrdersAtHeight (book : OrderMap) (height : Int) : List Order :=
  (book.map Prod.snd).filter (fun o => decide (o.Height = height))

/-- Modelled from the spec: `orderKeeper.GetOlderThan(h)`, the orders with `height ≤ h`. -/
def GetOlderThan (book : OrderMap) (height : Int) : List Order :=
  (book.map Prod.snd).filter (fun o => decide (o.Height ≤ height))

/-- The function `filterCandidates`: the orders whose sender is forbidden by neither token
issuer, in input order. -/
def filterCandidates (IsForbiddenByTokenIssuer : String → AccAddress → Bool)
    (ordersIn : List Order) (stock money : String) : List Order :=
  ordersIn.filter (fun order =>
    !(IsForbiddenByTokenIssuer stock order.Sender || IsForbiddenByTokenIssuer money order.Sender))

/-- The loop of `runMatch` that adds to `ordersForUpdate` the IOC orders of the current
height that are not in it. -/
def includeIOC : OrderMap → List Order → OrderMap
  | ordersForUpdate, [] => ordersForUpdate
  | ordersForUpdate, order :: rest =>
    if order.TimeInForce = TimeInForce.IOC then
      match ordersForUpdate.find order.OrderID with
      | some _ => includeIOC ordersForUpdate rest
      | none => includeIOC (ordersForUpdate.assign order.OrderID order) rest
    else includeIOC ordersForUpdate rest

/-- What `runMatch` returns (`ordersForUpdate`, `lastPrice`) and what it does on the way:
the keeper calls of its fills, the fill messages, and the fills executed. -/
structure MatchResult where
  ordersForUpdate : OrderMap
  lastPrice : Dec
  calls : List KeeperCall
  fillMsgs : List FillOrderInfo
  deals : List Fill
  deriving DecidableEq, Repr

/-- The function `runMatch` on the order book of the market `symbol`.  The matcher
(`match.Match`), `asKeeper.IsForbiddenByTokenIssuer` and `keeper.IsSubScribe` are
parameters. -/
def runMatch (matcher : Dec → Dec → Dec → List Order → List Order → List Fill)
    (IsForbiddenByTokenIssuer : String → AccAddress → Bool) (subscribed : Bool)
    (midPrice : Dec) (ratio : Int) (symbol : String) (book : OrderMap) (currHeight : Int) :
    Except Panic MatchResult :=
  let low := lowPrice midPrice ratio
  let high := highPrice midPrice ratio
  let infoForDeal : InfoForDeal := { calls := [], changedOrders := [], lastPrice := NewDec 0 }
  match stringsSplit symbol with
  | stock :: money :: _ =>
    let orderCandidates :=
      filterCandidates IsForbiddenByTokenIssuer (GetMatchingCandidates book) stock money
    let orderOldDeals : IntMap :=
      orderCandidates.foldl (fun m order => m.assign order.OrderID order.DealStock) []
    let orderOldMoneys : IntMap :=
      orderCandidates.foldl (fun m order => m.assign order.OrderID order.DealMoney) []
    let bidList := orderCandidates.filter (fun o => decide (o.Side = Side.BUY))
    let askList := orderCandidates.filter (fun o => !decide (o.Side = Side.BUY))
    match applyFills (matcher high midPrice low bidList askList)
        (bidList.map (fun o => (o.OrderID, o))) (askList.map (fun o => (o.OrderID, o)))
        infoForDeal [] with
    | none => Except.error Panic.indexOutOfRange
    | some (_, _, info, deals) =>
      let ordersForUpdate := includeIOC info.changedOrders (GetOrdersAtHeight book currHeight)
      Except.ok
        { ordersForUpdate := ordersForUpdate
          lastPrice := info.lastPrice
          calls := info.calls
          fillMsgs :=
            if subscribed then sendFillMsg orderOldDeals orderOldMoneys currHeight ordersForUpdate
            else []
          deals := deals }
  | _ => Except.error Panic.indexOutOfRange

/-! ## The chain state and the housekeeping sweeps -/

/-- Modelled from the spec: the struct `types.MarketInfo`, one per trading pair. -/
structure MarketInfo where
  Stock : String
  Money : String
  Creator : AccAddress
  PricePrecision : Int
  LastExecutedPrice : Dec
  deriving DecidableEq, Repr

/-- The symbol `mi.Stock + types.SymbolSeparator + mi.Money` of a market; the separator is
the `"/"` that the write-back loop of `EndBlocker` writes out. -/
def MarketInfo.symbol (mi : MarketInfo) : String := mi.Stock ++ "/" ++ mi.Money

/-- The pieces of `sdk.Context` and of the keeper that `EndBlocker` reads: block height,
Unix time of the block header, whether the chain id contains `IntegrationNetSubString`, and
`keeper.IsSubScribe(types.Topic)`. -/
structure BlockCtx where
  height : Int
  time : Int
  integrationNet : Bool
  subscribed : Bool
  deriving DecidableEq, Repr

/-- The stores behind the market keeper and the logs of what the driver does: the market
store, the order book of each symbol, the delist requests `(time, symbol)`, the clean-time
marker, the keeper calls, the order-keeper calls, and the cancel and fill messages. -/
structure ChainState where
  markets : List MarketInfo
  books : String → OrderMap
  delists : List (Int × String)
  cleanTime : Int
  calls : List KeeperCall
  keeperOps : List (Bool × Order)
  msgs : List CancelOrderInfo
  fillMsgs : List FillOrderInfo

/-- The view `keepers.NewOrderKeeper(..., symbol, ...)` of the chain state. -/
def ChainState.driver (st : ChainState) (symbol : String) : DriverState :=
  { book := st.books symbol, calls := st.calls, keeperOps := st.keeperOps, msgs := st.msgs }

/-- The chain state after the driver has worked on the book of `symbol`. -/
def ChainState.putDriver (st : ChainState) (symbol : String) (d : DriverState) : ChainState :=
  { st with
    books := fun s => if s = symbol then d.book else st.books s
    calls := d.calls
    keeperOps := d.keeperOps
    msgs := d.msgs }

/-- Modelled from the spec: `keeper.SetMarket`, insert or overwrite by trading pair. -/
def SetMarket : List MarketInfo → MarketInfo → List MarketInfo
  | [], mi => [mi]
  | m :: rest, mi =>
    if m.symbol = mi.symbol then mi :: rest else m :: SetMarket rest mi

/-- Modelled from the spec: `keeper.RemoveMarket`, delete the market of a symbol. -/
def RemoveMarket (markets : List MarketInfo) (symbol : String) : List MarketInfo :=
  markets.filter (fun m => !decide (m.symbol = symbol))

/-- The market stored for a symbol. -/
def findMarket : List MarketInfo → String → Option MarketInfo
  | [], _ => none
  | m :: rest, symbol => if m.symbol = symbol then some m else findMarket rest symbol

/-- Modelled from the spec: `delistKeeper.GetDelistSymbolsBeforeTime(t)`, the symbols of the
requests with `effective_time ≤ t`. -/
def GetDelistSymbolsBeforeTime (delists : List (Int × String)) (t : Int) : List String :=
  (delists.filter (fun r => decide (r.1 ≤ t))).map Prod.snd

/-- Modelled from the spec: `delistKeeper.RemoveDelistRequestsBeforeTime(t)`. -/
def RemoveDelistRequestsBeforeTime (delists : List (Int × String)) (t : Int) :
    List (Int × String) :=
  delists.filter (fun r => !decide (r.1 ≤ t))

/-- The loop of `removeOrderOlderThan` over the orders it fetched. -/
def removeOrders (feeK : List KeeperCall → AccAddress → Int → Option String)
    (filledFee : Order → Dec) (feeForZeroDeal : Int) :
    DriverState → List Order → Except Panic DriverState
  | d, [] => Except.ok d
  | d, order :: rest =>
    match removeOrder feeK filledFee d order feeForZeroDeal with
    | Except.error p => Except.error p
    | Except.ok d1 => removeOrders feeK filledFee feeForZeroDeal d1 rest

/-- The function `removeOrderOlderThan`. -/
def removeOrderOlderThan (feeK : List KeeperCall → AccAddress → Int → Option String)
    (filledFee : Order → Dec) (d : DriverState) (height feeForZeroDeal : Int) :
    Except Panic DriverState :=
  removeOrders feeK filledFee feeForZeroDeal d (GetOlderThan d.book height)

/-- The inner loop of `removeExpiredOrder` over the filtered orders of one market:
`removeOrder`, then a `CancelOrderInfo` with reason `GteTimeOut` when the topic is
subscribed. -/
def removeExpiredOrders (feeK : List KeeperCall → AccAddress → Int → Option String)
    (filledFee : Order → Dec) (subscribed : Bool) (height feeForZeroDeal : Int) :
    DriverState → List Order → Except Panic DriverState
  | d, [] => Except.ok d
  | d, order :: rest =>
    match removeOrder feeK filledFee d order feeForZeroDeal with
    | Except.error p => Except.error p
    | Except.ok d1 =>
      removeExpiredOrders feeK filledFee subscribed height feeForZeroDeal
        (if subscribed then
          { d1 with
            msgs := d1.msgs ++
              [ { OrderID := order.OrderID
                  TradingPair := order.TradingPair
                  Height := height
                  Side := order.Side
                  Price := order.Price
                  DelReason := DelReason.CancelOrderByGteTimeOut
                  UsedCommission := (CalOrderFee filledFee order feeForZeroDeal).RoundInt64
                  LeftStock := order.LeftStock
                  RemainAmount := order.Freeze
                  DealStock := order.DealStock
                  DealMoney := order.DealMoney } ] }
        else d1)
        rest

/-- The function `removeExpiredOrder`, over `marketInfoList`. -/
def removeExpiredOrder (feeK : List KeeperCall → AccAddress → Int → Option String)
    (filledFee : Order → Dec) (ctx : BlockCtx) (marketParams : Params) :
    List MarketInfo → ChainState → Except Panic ChainState
  | [], st => Except.ok st
  | mi :: rest, st =>
    let d := st.driver mi.symbol
    let oldOrders := GetOlderThan d.book (ctx.height - marketParams.GTEOrderLifetime)
    let filterOrders := filterOldOrders oldOrders ctx.height marketParams.GTEOrderLifetime
    match removeExpiredOrders feeK filledFee ctx.subscribed ctx.height
        marketParams.FeeForZeroDeal d filterOrders with
    | Except.error p => Except.error p
    | Except.ok d1 =>
      removeExpiredOrder feeK filledFee ctx marketParams rest (st.putDriver mi.symbol d1)

/-- The loop of `removeExpiredMarket` over the delisted symbols: remove every order of the
symbol, then the market. -/
def delistMarkets (feeK : List KeeperCall → AccAddress → Int → Option String)
    (filledFee : Order → Dec) (ctx : BlockCtx) (marketParams : Params) :
    List String → ChainState → Except Panic ChainState
  | [], st => Except.ok st
  | symbol :: rest, st =>
    match removeOrderOlderThan feeK filledFee (st.driver symbol) (ctx.height + 1)
        marketParams.FeeForZeroDeal with
    | Except.error p => Except.error p
    | Except.ok d1 =>
      let st1 := st.putDriver symbol d1
      delistMarkets feeK filledFee ctx marketParams rest
        { st1 with markets := RemoveMarket st1.markets symbol }

/-- The function `removeExpiredMarket`. -/
def removeExpiredMarket (feeK : List KeeperCall → AccAddress → Int → Option String)
    (filledFee : Order → Dec) (ctx : BlockCtx) (marketParams : Params) (st : ChainState) :
    Except Panic ChainState :=
  let cutoff := ctx.time - marketParams.MarketMinExpiredTime + 1
  let delistSymbols := GetDelistSymbolsBeforeTime st.delists cutoff
  match delistMarkets feeK filledFee ctx marketParams delistSymbols st with
  | Except.error p => Except.error p
  | Except.ok st1 =>
    Except.ok { st1 with delists := RemoveDelistRequestsBeforeTime st1.delists cutoff }

/-! ## EndBlocker -/

/-- The external collaborators of `EndBlocker`: the local time zone of the node, the fee
keeper, the fee of an order with fills, `keeper.IsTokenForbidden`,
`asKeeper.IsForbiddenByTokenIssuer`, and the matcher `match.Match`. -/
structure Keepers where
  zone : Int → Int
  feeK : List KeeperCall → AccAddress → Int → Option String
  filledFee : Order → Dec
  IsTokenForbidden : String → Bool
  IsForbiddenByTokenIssuer : String → AccAddress → Bool
  matcher : Dec → Dec → Dec → List Order → List Order → List Fill

/-- What the first loop of the matching branch leaves for the market at one index:
`ordersForUpdateList[idx]` (the nil map of a skipped market is empty), `newPrices[idx]`
(`none` is the zero value of `sdk.Dec`, whose `big.Int` pointer is nil), and what `runMatch`
did on the way. -/
structure PassResult where
  ordersForUpdate : OrderMap
  newPrice : Option Dec
  calls : List KeeperCall
  fillMsgs : List FillOrderInfo
  deals : List Fill
  deriving DecidableEq, Repr

/-- The body of the first loop of the matching branch for one market: skip a market with a
globally forbidden token, else `runMatch`. -/
def marketPass (ks : Keepers) (ctx : BlockCtx) (marketParams : Params)
    (books : String → OrderMap) (mi : MarketInfo) : Except Panic PassResult :=
  if ks.IsTokenForbidden mi.Stock || ks.IsTokenForbidden mi.Money then
    Except.ok { ordersForUpdate := [], newPrice := none, calls := [], fillMsgs := [], deals := [] }
  else
    match runMatch ks.matcher ks.IsForbiddenByTokenIssuer ctx.subscribed mi.LastExecutedPrice
        marketParams.MaxExecutedPriceChangeRatio mi.symbol (books mi.symbol) ctx.height with
    | Except.error p => Except.error p
    | Except.ok r =>
      Except.ok
        { ordersForUpdate := r.ordersForUpdate
          newPrice := some r.lastPrice
          calls := r.calls
          fillMsgs := r.fillMsgs
          deals := r.deals }

/-- The first loop of the matching branch, over `marketInfoList`. -/
def matchAll (ks : Keepers) (ctx : BlockCtx) (marketParams : Params)
    (books : String → OrderMap) : List MarketInfo → Except Panic (List PassResult)
  | [] => Except.ok []
  | mi :: rest =>
    match marketPass ks ctx marketParams books mi with
    | Except.error p => Except.error p
    | Except.ok r =>
      match matchAll ks ctx marketParams books rest with
      | Except.error p => Except.error p
      | Except.ok rs => Except.ok (r :: rs)

/-- The body of the second loop of the matching branch for one market: skip when there is
nothing to update; else write the changed orders back and, when `newPrices[idx]` is not
zero, store it as the last executed price.  `IsZero` on the zero value of `sdk.Dec`
dereferences a nil pointer. -/
def writeBackMarket (ks : Keepers) (ctx : BlockCtx) (marketParams : Params)
    (st : ChainState) (mi : MarketInfo) (pass : PassResult) : Except Panic ChainState :=
  if pass.ordersForUpdate.length = 0 then Except.ok st
  else
    match writeBack ks.feeK ks.filledFee ctx.subscribed ctx.height marketParams.FeeForZeroDeal
        (st.driver mi.symbol) (pass.ordersForUpdate.map Prod.snd) with
    | Except.error p => Except.error p
    | Except.ok d1 =>
      let st1 := st.putDriver mi.symbol d1
      match pass.newPrice with
      | none => Except.error Panic.nilDereference
      | some newPrice =>
        if !newPrice.IsZero then
          Except.ok
            { st1 with
              markets := SetMarket st1.markets { mi with LastExecutedPrice := newPrice } }
        else Except.ok st1

/-- The second loop of the matching branch, over `marketInfoList` and the results of the
first loop at the same index. -/
def writeBackAll (ks : Keepers) (ctx : BlockCtx) (marketParams : Params) :
    List (MarketInfo × PassResult) → ChainState → Except Panic ChainState
  | [], st => Except.ok st
  | (mi, pass) :: rest, st =>
    match writeBackMarket ks ctx marketParams st mi pass with
    | Except.error p => Except.error p
    | Except.ok st1 => writeBackAll ks ctx marketParams rest st1

/-- The housekeeping branch of `EndBlocker`: set the clean time, sweep the expired GTE
orders, sweep the delisted markets. -/
def housekeeping (feeK : List KeeperCall → AccAddress → Int → Option String)
    (filledFee : Order → Dec) (ctx : BlockCtx) (marketParams : Params) (st : ChainState) :
    Except Panic ChainState :=
  match removeExpiredOrder feeK filledFee ctx marketParams st.markets
      { st with cleanTime := ctx.time } with
  | Except.error p => Except.error p
  | Except.ok st1 => removeExpiredMarket feeK filledFee ctx marketParams st1

/-- The function `EndBlocker`. -/
def EndBlocker (ks : Keepers) (ctx : BlockCtx) (marketParams : Params) (st : ChainState) :
    Except Panic ChainState :=
  if needRemove ks.zone ctx.integrationNet st.cleanTime ctx.time = true then
    housekeeping ks.feeK ks.filledFee ctx marketParams st
  else
    match matchAll ks ctx marketParams st.books st.markets with
    | Except.error p => Except.error p
    | Except.ok passes =>
      writeBackAll ks ctx marketParams (st.markets.zip passes)
        { st with
          calls := st.calls ++ passes.flatMap (fun r => r.calls)
          fillMsgs := st.fillMsgs ++ passes.flatMap (fun r => r.fillMsgs) }

/-! ## The whitelist store (modules/asset/keeper.go) -/

/-- The variable `WhitelistKeyPrefix = []byte{0x02}`. -/
def WhitelistKeyPrefix : List Nat := [2]

/-- The function `WhitelistKey`; a Go string is its sequence of bytes. -/
def WhitelistKey (symbol : List Nat) (addr : AccAddress) : List Nat :=
  (WhitelistKeyPrefix ++ symbol) ++ addr

/-- Lexicographic order on byte strings: is `a` before `b`. -/
def bytesLt : List Nat → List Nat → Bool
  | [], [] => false
  | [], _ :: _ => true
  | _ :: _, [] => false
  | x :: xs, y :: ys => if x < y then true else if y < x then false else bytesLt xs ys

/-- Modelled from the spec: `store.Set(key, []byte{})` on the ordered key-value store; the
store is the list of its keys in lexicographic order. -/
def storeSet : List (List Nat) → List Nat → List (List Nat)
  | [], key => [key]
  | k :: rest, key =>
    if k = key then k :: rest
    else if bytesLt key k then key :: k :: rest
    else k :: storeSet rest key

/-- Modelled from the spec: `store.Delete(key)`. -/
def storeDelete (store : List (List Nat)) (key : List Nat) : List (List Nat) :=
  store.filter (fun k => !decide (k = key))

/-- Modelled from the spec: the keys that `sdk.KVStorePrefixIterator(store, p)` yields, in
lexicographic order. -/
def prefixKeys (store : List (List Nat)) (p : List Nat) : List (List Nat) :=
  store.filter (fun k => p.isPrefixOf k)

/-- The method `TokenKeeper.addWhitelist`. -/
def addWhitelist (store : List (List Nat)) (symbol : List Nat) (whitelist : List AccAddress) :
    List (List Nat) :=
  whitelist.foldl (fun s addr => storeSet s (WhitelistKey symbol addr)) store

/-- The method `TokenKeeper.removeWhitelist`. -/
def removeWhitelist (store : List (List Nat)) (symbol : List Nat)
    (whitelist : List AccAddress) : List (List Nat) :=
  whitelist.foldl (fun s addr => storeDelete s (WhitelistKey symbol addr)) store

/-- The method `TokenKeeper.GetWhitelist`, with `IterateWhitelist` inlined: of each key
under the prefix `WhitelistKeyPrefix ++ symbol`, the bytes from
`len(WhitelistKeyPrefix)+len(symbol)` on. -/
def GetWhitelist (store : List (List Nat)) (symbol : List Nat) : List AccAddress :=
  (prefixKeys store (WhitelistKeyPrefix ++ symbol)).map
    (fun key => key.drop (WhitelistKeyPrefix.length + symbol.length))

/-! ## Concrete states -/

/-- An IOC ask at price 12 that was submitted at height 99. -/
def staleIocAsk : Order :=
  { s3Ask with Sequence := 8, Price := NewDec 12, TimeInForce := TimeInForce.IOC, Height := 99 }

/-- The market `abc/usd` with last executed price 10. -/
def abcMarket : MarketInfo :=
  { Stock := "abc", Money := "usd", Creator := [9], PricePrecision := 8,
    LastExecutedPrice := NewDec 10 }

/-- A chain state with the one market `abc/usd`, the given orders in its book, the given
delist requests and clean time, and empty logs. -/
def chainOf (orders : List Order) (delists : List (Int × String)) (cleanTime : Int) :
    ChainState :=
  { markets := [abcMarket]
    books := fun s => if s = "abc/usd" then orders.map (fun o => (o.OrderID, o)) else []
    delists := delists
    cleanTime := cleanTime
    calls := []
    keeperOps := []
    msgs := []
    fillMsgs := [] }

/-- Collaborators that forbid nothing, never fail, and whose matcher decides the given
fills. -/
def keepersWith (fills : List Fill) : Keepers :=
  { zone := utc
    feeK := feeNeverFails
    filledFee := zeroFilledFee
    IsTokenForbidden := fun _ => false
    IsForbiddenByTokenIssuer := fun _ _ => false
    matcher := fun _ _ _ _ _ => fills }

/-- A block at height 100 on 2019-01-01 00:01:40 UTC, the topic subscribed. -/
def matchingCtx : BlockCtx :=
  { height := 100, time := 1546300900, integrationNet := false, subscribed := true }

/-- A block at height 100 on 2019-01-09 00:00:00 UTC, the topic subscribed. -/
def housekeepingCtx : BlockCtx :=
  { height := 100, time := 1546992000, integrationNet := false, subscribed := true }

/-- The default parameters with `MarketMinExpiredTime` given in seconds. -/
def secondsParams : Params := { DefaultParams with MarketMinExpiredTime := 604800 }

/-- The bytes of the symbol `abc`. -/
def abcBytes : List Nat := [97, 98, 99]

/-- The bytes of the symbol `abcd`. -/
def abcdBytes : List Nat := [97, 98, 99, 100]

/-- The keeper calls that `removeOrder` makes for an order: those of a run on an empty log
with a fee keeper that does not fail. -/
def removalCalls (filledFee : Order → Dec) (order : Order) (feeForZeroDeal : Int) :
    List KeeperCall :=
  match removeOrder feeNeverFails filledFee emptyDriver order feeForZeroDeal with
  | Except.ok st => st.calls
  | Except.error _ => []

/-- An ask at price 9 for 4 units. -/
def cheapAsk : Order := { s3Ask with Sequence := 9, Price := NewDec 9 }

/-- The fill of 4 units at price 9 between `liveBid` and `cheapAsk`. -/
def fillAtNine : Fill := ⟨liveBid.OrderID, cheapAsk.OrderID, 4, NewDec 9⟩

/-- Whether a keeper call is a `SendCoins`, the transfer that every `Deal` makes. -/
def KeeperCall.isSendCoins : KeeperCall → Bool
  | KeeperCall.SendCoins _ _ _ _ => true
  | _ => false

/-! # Theorems -/

/-! ## Lemmas on the decimal type -/

theorem chopPrecisionAndRound_eq_roundHalfEven (n : Int) :
    chopPrecisionAndRound n = roundHalfEven n := by
  unfold chopPrecisionAndRound chopRoundNonneg roundHalfEven
  simp only []
  split_ifs <;> omega

theorem chopPrecisionAndRound_mul_precision (i : Int) :
    chopPrecisionAndRound (i * 1000000000000000000) = i := by
  unfold chopPrecisionAndRound chopRoundNonneg
  simp only []
  split_ifs <;> omega

theorem chopPrecisionAndTruncate_nonneg (n : Int) (h : 0 ≤ n) :
    chopPrecisionAndTruncate n = n / 1000000000000000000 := by
  unfold chopPrecisionAndTruncate
  exact Int.tdiv_eq_ediv h (by decide)

theorem chopPrecisionAndTruncate_neg (n : Int) (h : n ≤ 0) :
    chopPrecisionAndTruncate n = -((-n) / 1000000000000000000) := by
  unfold chopPrecisionAndTruncate
  have h1 : Int.tdiv (-n) 1000000000000000000 = (-n) / 1000000000000000000 :=
    Int.tdiv_eq_ediv (by omega) (by decide)
  rw [Int.neg_tdiv] at h1
  omega

theorem chopPrecisionAndTruncate_isTrunc (n : Int) :
    IsTruncTowardZero n (chopPrecisionAndTruncate n) := by
  unfold IsTruncTowardZero
  constructor
  · intro h
    rw [chopPrecisionAndTruncate_nonneg n h]
    omega
  · intro h
    rw [chopPrecisionAndTruncate_neg n h]
    omega

/-- Truncation toward zero is determined by `IsTruncTowardZero`. -/
theorem isTruncTowardZero_unique (n a b : Int) (ha : IsTruncTowardZero n a)
    (hb : IsTruncTowardZero n b) : a = b := by
  unfold IsTruncTowardZero at ha hb
  rcases le_total 0 n with h | h
  · have h1 := ha.1 h
    have h2 := hb.1 h
    omega
  · have h1 := ha.2 h
    have h2 := hb.2 h
    omega

/-- C1: for two distinct orders of one trading pair, a BUY order `bo` and a SELL order `so`,
`Deal` called on either of them computes `moneyAmount`, the product `price * amount`
truncated toward zero, and leaves the buyer with `LeftStock - amount`, `Freeze - moneyAmount`,
`DealStock + amount`, `DealMoney + moneyAmount`, the seller with `LeftStock - amount`,
`Freeze - amount`, `DealStock + amount`, `DealMoney + moneyAmount`, every other field as it
was; so `LeftStock` after plus `amount` is `LeftStock` before, and
`DealStock + LeftStock = Quantity` is preserved on both orders. -/
theorem Deal_updates_both_orders (bo so : Order) (info : InfoForDeal) (amount : Int)
    (price : Dec) (stock money : String) (rest : List String)
    (hb : bo.Side = Side.BUY) (hs : so.Side = Side.SELL)
    (hne : bo.OrderID ≠ so.OrderID)
    (hpair : bo.TradingPair = so.TradingPair)
    (hsplit : stringsSplit bo.TradingPair = stock :: money :: rest) :
    ∃ (moneyAmount : Int) (buyer1 seller1 : Order),
      IsTruncTowardZero (price.raw * amount) moneyAmount ∧
      buyer1 =
        { bo with
          LeftStock := bo.LeftStock - amount
          Freeze := bo.Freeze - moneyAmount
          DealStock := bo.DealStock + amount
          DealMoney := bo.DealMoney + moneyAmount } ∧
      seller1 =
        { so with
          LeftStock := so.LeftStock - amount
          Freeze := so.Freeze - amount
          DealStock := so.DealStock + amount
          DealMoney := so.DealMoney + moneyAmount } ∧
      (Deal bo so info amount price).map (fun r => (r.wo, r.other)) = some (buyer1, seller1) ∧
      (Deal so bo info amount price).map (fun r => (r.wo, r.other)) = some (seller1, buyer1) ∧
      buyer1.LeftStock + amount = bo.LeftStock ∧
      seller1.LeftStock + amount = so.LeftStock ∧
      buyer1.DealStock + buyer1.LeftStock = bo.DealStock + bo.LeftStock ∧
      seller1.DealStock + seller1.LeftStock = so.DealStock + so.LeftStock ∧
      (bo.DealStock + bo.LeftStock = bo.Quantity →
        buyer1.DealStock + buyer1.LeftStock = buyer1.Quantity) ∧
      (so.DealStock + so.LeftStock = so.Quantity →
        seller1.DealStock + seller1.LeftStock = seller1.Quantity) := by
  have hbs : bo.Side ≠ Side.SELL := by rw [hb]; decide
  have _hne := hne
  refine ⟨(price.MulInt amount).TruncateInt64, _, _,
    chopPrecisionAndTruncate_isTrunc _, rfl, rfl, ?_, ?_, ?_, ?_, ?_, ?_, ?_, ?_⟩
  · simp only [Deal, if_neg hbs, hsplit, Option.map_some']
  · simp only [Deal, hs, if_true, ← hpair, hsplit, Option.map_some']
  · show bo.LeftStock - amount + amount = bo.LeftStock
    omega
  · show so.LeftStock - amount + amount = so.LeftStock
    omega
  · show bo.DealStock + amount + (bo.LeftStock - amount) = bo.DealStock + bo.LeftStock
    omega
  · show so.DealStock + amount + (so.LeftStock - amount) = so.DealStock + so.LeftStock
    omega
  · intro h
    show bo.DealStock + amount + (bo.LeftStock - amount) = bo.Quantity
    omega
  · intro h
    show so.DealStock + amount + (so.LeftStock - amount) = so.Quantity
    omega

/-! ## Lemmas on the ledger -/

/-- The change of every holding under the four calls of one fill: the buyer's role adds
`amount` of stock and takes `moneyAmount` of money, the seller's role does the opposite. -/
theorem Ledger.holdings_after_fill (l : Ledger) (buyer seller : AccAddress)
    (stock money : String) (amount moneyAmount : Int) (a : AccAddress) (d : String) :
    (l.run
        [ KeeperCall.UnFreezeCoins seller stock amount,
          KeeperCall.SendCoins seller buyer stock amount,
          KeeperCall.UnFreezeCoins buyer money moneyAmount,
          KeeperCall.SendCoins buyer seller money moneyAmount ]).holdings a d
      - l.holdings a d
      = (if a = buyer then
          (if d = stock then amount else 0) - (if d = money then moneyAmount else 0) else 0)
        + (if a = seller then
          (if d = money then moneyAmount else 0) - (if d = stock then amount else 0) else 0) := by
  simp only [Ledger.run, List.foldl, Ledger.step, Ledger.holdings]
  by_cases h1 : a = buyer <;> by_cases h2 : a = seller <;> by_cases h3 : d = stock <;>
    by_cases h4 : d = money <;> by_cases h5 : buyer = seller <;>
    by_cases h6 : stock = money <;> simp_all <;> omega

/-- C2: a fill of `amount` at `price` between a BUY order `bo` and a SELL order `so` makes
`Deal` (called on either order) append exactly four keeper calls, in this order:
`UnFreezeCoins(seller, amount stock)`, `SendCoins(seller, buyer, amount stock)`,
`UnFreezeCoins(buyer, moneyAmount money)`, `SendCoins(buyer, seller, moneyAmount money)`,
`moneyAmount` being `price * amount` truncated toward zero.  On every ledger these calls
change the buyer's holdings by `+amount` stock and `-moneyAmount` money and the seller's by
`-amount` stock and `+moneyAmount` money (buyer and seller being two accounts, stock and
money two denominations), and the changes summed over the accounts are zero for each
denomination. -/
theorem Deal_issues_four_calls (bo so : Order) (info : InfoForDeal) (amount : Int)
    (price : Dec) (stock money : String) (rest : List String)
    (hb : bo.Side = Side.BUY) (hs : so.Side = Side.SELL)
    (hpair : bo.TradingPair = so.TradingPair)
    (hsplit : stringsSplit bo.TradingPair = stock :: money :: rest) :
    ∃ (moneyAmount : Int) (fill : List KeeperCall),
      IsTruncTowardZero (price.raw * amount) moneyAmount ∧
      fill =
        [ KeeperCall.UnFreezeCoins so.Sender stock amount,
          KeeperCall.SendCoins so.Sender bo.Sender stock amount,
          KeeperCall.UnFreezeCoins bo.Sender money moneyAmount,
          KeeperCall.SendCoins bo.Sender so.Sender money moneyAmount ] ∧
      (Deal bo so info amount price).map (fun r => r.info.calls) = some (info.calls ++ fill) ∧
      (Deal so bo info amount price).map (fun r => r.info.calls) = some (info.calls ++ fill) ∧
      ∀ l : Ledger,
        (bo.Sender ≠ so.Sender → stock ≠ money →
          (l.run fill).holdings bo.Sender stock = l.holdings bo.Sender stock + amount ∧
          (l.run fill).holdings bo.Sender money = l.holdings bo.Sender money - moneyAmount ∧
          (l.run fill).holdings so.Sender stock = l.holdings so.Sender stock - amount ∧
          (l.run fill).holdings so.Sender money = l.holdings so.Sender money + moneyAmount) ∧
        (∀ (a : AccAddress) (d : String), a ≠ bo.Sender → a ≠ so.Sender →
          (l.run fill).holdings a d = l.holdings a d) ∧
        (∀ (accounts : Finset AccAddress) (d : String),
          bo.Sender ∈ accounts → so.Sender ∈ accounts →
          Finset.sum accounts (fun a => (l.run fill).holdings a d - l.holdings a d) = 0) := by
  have hbs : bo.Side ≠ Side.SELL := by rw [hb]; decide
  refine ⟨(price.MulInt amount).TruncateInt64, _, chopPrecisionAndTruncate_isTrunc _, rfl,
    ?_, ?_, ?_⟩
  · simp only [Deal, if_neg hbs, hsplit, Option.map_some']
  · simp only [Deal, hs, if_true, ← hpair, hsplit, Option.map_some']
  · intro l
    have key := Ledger.holdings_after_fill l bo.Sender so.Sender stock money amount
      (price.MulInt amount).TruncateInt64
    refine ⟨?_, ?_, ?_⟩
    · intro hacc hden
      have hacc2 : ¬ so.Sender = bo.Sender := fun h => hacc h.symm
      have hden2 : ¬ money = stock := fun h => hden h.symm
      have k1 := key bo.Sender stock
      have k2 := key bo.Sender money
      have k3 := key so.Sender stock
      have k4 := key so.Sender money
      simp only [if_true, if_neg hacc, if_neg hacc2, if_neg hden, if_neg hden2] at k1 k2 k3 k4
      refine ⟨?_, ?_, ?_, ?_⟩ <;> omega
    · intro a d h1 h2
      have k := key a d
      simp only [if_neg h1, if_neg h2] at k
      omega
    · intro accounts d h1 h2
      simp only [key, Finset.sum_add_distrib, Finset.sum_ite_eq', h1, h2, if_true]
      omega

/-! ## Lemmas on the price band -/

theorem Deal_updates_both_orders_witness :
    ∃ (moneyAmount : Int), IsTruncTowardZero ((NewDec 10).raw * 4) moneyAmount ∧
      (Deal s3Bid s3Ask emptyInfo 4 (NewDec 10)).map (fun r => r.wo.LeftStock + 4)
        = some s3Bid.LeftStock := by
  obtain ⟨m, b, s, h1, h2, h3, h4, h5, h6, h7⟩ :=
    Deal_updates_both_orders s3Bid s3Ask emptyInfo 4 (NewDec 10) "abc" "usd" []
      (by decide) (by decide) (by decide) (by decide) (by decide)
  refine ⟨m, h1, ?_⟩
  rw [← h6]
  cases hD : Deal s3Bid s3Ask emptyInfo 4 (NewDec 10) with
  | none => rw [hD] at h4; simp at h4
  | some r =>
    rw [hD] at h4
    simp only [Option.map_some', Option.some.injEq, Prod.mk.injEq] at h4
    simp only [Option.map_some', h4.1]

theorem Deal_issues_four_calls_witness :
    ∃ (moneyAmount : Int), IsTruncTowardZero ((NewDec 10).raw * 4) moneyAmount ∧
      (Deal s3Bid s3Ask emptyInfo 4 (NewDec 10)).map (fun r => r.info.calls)
        = some
          [ KeeperCall.UnFreezeCoins [2] "abc" 4,
            KeeperCall.SendCoins [2] [1] "abc" 4,
            KeeperCall.UnFreezeCoins [1] "usd" moneyAmount,
            KeeperCall.SendCoins [1] [2] "usd" moneyAmount ] := by
  obtain ⟨m, fill, h1, h2, h3, _⟩ :=
    Deal_issues_four_calls s3Bid s3Ask emptyInfo 4 (NewDec 10) "abc" "usd" []
      (by decide) (by decide) (by decide) (by decide)
  refine ⟨m, h1, ?_⟩
  rw [h3, h2]
  rfl

/-! ## Under-frozen orders -/

/-- The bound of `notEnoughMoney`, `Price.Mul(NewDec(LeftStock)).RoundInt64()`, is the
product `Price * LeftStock` rounded half to even. -/
theorem notEnoughMoney_bound (order : Order) :
    (order.Price.Mul (NewDec order.LeftStock)).RoundInt64
      = roundHalfEven (order.Price.raw * order.LeftStock) := by
  have h : order.Price.raw * (order.LeftStock * 1000000000000000000)
      = order.Price.raw * order.LeftStock * 1000000000000000000 := by ring
  simp only [Dec.RoundInt64, Dec.Mul, NewDec, h, chopPrecisionAndRound_mul_precision]
  exact chopPrecisionAndRound_eq_roundHalfEven _

/-- The test `notEnoughMoney` holds exactly for a BUY order whose `Freeze` is below
`Price * LeftStock` rounded half to even. -/
theorem notEnoughMoney_iff (order : Order) :
    notEnoughMoney order = true ↔
      (order.Side = Side.BUY ∧
        order.Freeze < roundHalfEven (order.Price.raw * order.LeftStock)) := by
  simp only [notEnoughMoney, notEnoughMoney_bound, Bool.and_eq_true, decide_eq_true_eq]

/-- The amount `GetAmount` reports, by cases on the under-frozen test. -/
theorem GetAmount_eq (order : Order) :
    GetAmount order =
      (if order.Side = Side.BUY ∧
          order.Freeze < roundHalfEven (order.Price.raw * order.LeftStock)
        then 0 else order.LeftStock) := by
  unfold GetAmount
  by_cases h : notEnoughMoney order = true
  · rw [if_pos h, if_pos ((notEnoughMoney_iff order).mp h)]
  · rw [if_neg h, if_neg (fun hc => h ((notEnoughMoney_iff order).mpr hc))]

/-- C4, as the code has it: `GetAmount` returns 0 for an under-frozen order and
`LeftStock` otherwise, an order being under-frozen exactly when it is a BUY order and
`Freeze < round(Price * LeftStock)` with `round` rounding half to even (the rounding of
`Dec.RoundInt64`); a SELL order always reports `LeftStock`. -/
theorem GetAmount_under_frozen (order : Order) :
    (notEnoughMoney order = true ↔
      (order.Side = Side.BUY ∧
        order.Freeze < roundHalfEven (order.Price.raw * order.LeftStock))) ∧
    GetAmount order =
      (if order.Side = Side.BUY ∧
          order.Freeze < roundHalfEven (order.Price.raw * order.LeftStock)
        then 0 else order.LeftStock) ∧
    (order.Side = Side.SELL → GetAmount order = order.LeftStock) := by
  refine ⟨notEnoughMoney_iff order, GetAmount_eq order, ?_⟩
  intro hs
  rw [GetAmount_eq, if_neg]
  rintro ⟨hb, _⟩
  rw [hs] at hb
  exact absurd hb (by decide)

theorem GetAmount_under_frozen_witness :
    s3Ask.Side = Side.SELL ∧ GetAmount s3Ask = s3Ask.LeftStock :=
  ⟨by decide, (GetAmount_under_frozen s3Ask).2.2 (by decide)⟩

/-- C4, counterexample: the bid at price 0.5 for 5 units with 2 frozen is under-frozen by
round-half-away-from-zero (`2 < round(2.5) = 3`), yet `GetAmount` reports its `LeftStock`,
5. -/
theorem GetAmount_half_away_counterexample :
    halfPriceBid.Side = Side.BUY ∧
    halfPriceBid.Freeze < roundHalfAwayFromZero (halfPriceBid.Price.raw * halfPriceBid.LeftStock) ∧
    GetAmount halfPriceBid = 5 ∧ GetAmount halfPriceBid ≠ 0 := by
  decide

/-- C5: a fill does not overdraw the escrow.  For a BUY order `bo` with `Price ≥ 0` and
`LeftStock ≥ 0`, an amount with `0 < amount ≤ GetAmount bo` and an execution price with
`0 ≤ price ≤ bo.Price`, `Deal` (called on either order) leaves the buyer's `Freeze ≥ 0`; for
a SELL order `so` with `Freeze = LeftStock` and `amount ≤ LeftStock`, `Deal` leaves
`Freeze = LeftStock ≥ 0`. -/
theorem Deal_never_overdraws (bo so : Order) (info : InfoForDeal) (amount : Int)
    (price : Dec) (stock money : String) (rest : List String)
    (hb : bo.Side = Side.BUY) (hs : so.Side = Side.SELL)
    (hsplit : stringsSplit bo.TradingPair = stock :: money :: rest) :
    ∃ r1 r2 : DealResult,
      Deal bo so info amount price = some r1 ∧ Deal so bo info amount price = some r2 ∧
      (0 ≤ bo.Price.raw → 0 ≤ bo.LeftStock → 0 < amount → amount ≤ GetAmount bo →
        0 ≤ price.raw → price.raw ≤ bo.Price.raw →
        0 ≤ r1.wo.Freeze ∧ 0 ≤ r2.other.Freeze) ∧
      (so.Freeze = so.LeftStock → amount ≤ so.LeftStock →
        r1.other.Freeze = r1.other.LeftStock ∧ 0 ≤ r1.other.Freeze ∧
        r2.wo.Freeze = r2.wo.LeftStock ∧ 0 ≤ r2.wo.Freeze) := by
  have hbs : bo.Side ≠ Side.SELL := by rw [hb]; decide
  refine ⟨_, _, by simp only [Deal, if_neg hbs, hsplit]; rfl,
    by simp only [Deal, hs, if_true, hsplit]; rfl, ?_, ?_⟩
  · intro hP hL ha0 ha1 hp0 hp1
    have hget := GetAmount_eq bo
    have hle : price.raw * amount ≤ bo.Price.raw * bo.LeftStock := by
      by_cases hu : bo.Side = Side.BUY ∧
          bo.Freeze < roundHalfEven (bo.Price.raw * bo.LeftStock)
      · rw [if_pos hu] at hget; omega
      · rw [if_neg hu] at hget
        exact Int.mul_le_mul hp1 (by omega) (by omega) hP
    have hx0 : 0 ≤ price.raw * amount := Int.mul_nonneg hp0 (by omega)
    have hfr : roundHalfEven (bo.Price.raw * bo.LeftStock) ≤ bo.Freeze := by
      by_cases hu : bo.Side = Side.BUY ∧
          bo.Freeze < roundHalfEven (bo.Price.raw * bo.LeftStock)
      · rw [if_pos hu] at hget; omega
      · exact Int.not_lt.mp (fun h => hu ⟨hb, h⟩)
    have htr : (price.MulInt amount).TruncateInt64 ≤ bo.Freeze := by
      simp only [Dec.TruncateInt64, Dec.MulInt]
      rw [chopPrecisionAndTruncate_nonneg _ hx0]
      generalize price.raw * amount = x at hle hx0
      generalize bo.Price.raw * bo.LeftStock = y at hle hfr
      unfold roundHalfEven at hfr
      split_ifs at hfr <;> omega
    constructor
    · show 0 ≤ bo.Freeze - (price.MulInt amount).TruncateInt64
      omega
    · show 0 ≤ bo.Freeze - (price.MulInt amount).TruncateInt64
      omega
  · intro hf ha
    refine ⟨?_, ?_, ?_, ?_⟩
    · show so.Freeze - amount = so.LeftStock - amount
      omega
    · show 0 ≤ so.Freeze - amount
      omega
    · show so.Freeze - amount = so.LeftStock - amount
      omega
    · show 0 ≤ so.Freeze - amount
      omega

/-! ## Lemmas on order maps -/

theorem OrderMap.find_assign_self (m : OrderMap) (k : AccAddress × Nat) (v : Order) :
    (m.assign k v).find k = some v := by
  induction m with
  | nil => simp [OrderMap.assign, OrderMap.find]
  | cons p rest ih =>
    obtain ⟨k0, v0⟩ := p
    by_cases h : k0 = k
    · simp [OrderMap.assign, OrderMap.find, h]
    · simp [OrderMap.assign, OrderMap.find, h, ih]

theorem OrderMap.find_assign_other (m : OrderMap) (k k1 : AccAddress × Nat) (v : Order)
    (hk : k1 ≠ k) : (m.assign k v).find k1 = m.find k1 := by
  induction m with
  | nil =>
    have hk2 : ¬ k = k1 := fun h => hk h.symm
    simp [OrderMap.assign, OrderMap.find, hk2]
  | cons p rest ih =>
    obtain ⟨k0, v0⟩ := p
    by_cases h : k0 = k
    · have hk2 : ¬ k = k1 := fun h => hk h.symm
      have hk3 : ¬ k0 = k1 := fun h2 => hk (h2.symm.trans h)
      simp [OrderMap.assign, OrderMap.find, h, hk2]
    · by_cases h2 : k0 = k1
      · subst h2
        simp [OrderMap.assign, OrderMap.find, h]
      · simp [OrderMap.assign, OrderMap.find, h, h2, ih]

theorem OrderMap.find_delete_self (m : OrderMap) (k : AccAddress × Nat) :
    (m.delete k).find k = none := by
  induction m with
  | nil => simp [OrderMap.delete, OrderMap.find]
  | cons p rest ih =>
    obtain ⟨k0, v0⟩ := p
    by_cases h : k0 = k
    · simp [OrderMap.delete, h, ih]
    · simp [OrderMap.delete, OrderMap.find, h, ih]

theorem OrderMap.find_delete_other (m : OrderMap) (k k1 : AccAddress × Nat) (hk : k1 ≠ k) :
    (m.delete k).find k1 = m.find k1 := by
  induction m with
  | nil => simp [OrderMap.delete, OrderMap.find]
  | cons p rest ih =>
    obtain ⟨k0, v0⟩ := p
    by_cases h : k0 = k
    · have hk2 : ¬ k = k1 := fun h2 => hk h2.symm
      simp [OrderMap.delete, OrderMap.find, h, ih, hk2]
    · by_cases h2 : k0 = k1
      · subst h2
        simp [OrderMap.delete, OrderMap.find, h]
      · simp [OrderMap.delete, OrderMap.find, h, h2, ih]

/-! ## Lemmas on removal and write-back -/

/-- A `removeOrder` that returns has deleted the order from the book, logged one `Remove`
and sent no message. -/
theorem removeOrder_ok (feeK : List KeeperCall → AccAddress → Int → Option String)
    (filledFee : Order → Dec) (st st1 : DriverState) (order : Order) (feeForZeroDeal : Int)
    (h : removeOrder feeK filledFee st order feeForZeroDeal = Except.ok st1) :
    st1.book = st.book.delete order.OrderID ∧
    st1.keeperOps = st.keeperOps ++ [(false, order)] ∧
    st1.msgs = st.msgs := by
  unfold removeOrder at h
  split_ifs at h with hc
  · split at h
    · exact absurd h (by simp)
    · injection h with h
      subst h
      simp [DriverState.Remove]
  · injection h with h
    subst h
    simp [DriverState.Remove]

/-- What one round of the write-back loop leaves when it returns. -/
theorem writeBackOrder_ok (feeK : List KeeperCall → AccAddress → Int → Option String)
    (filledFee : Order → Dec) (subscribed : Bool) (height feeForZeroDeal : Int)
    (st st1 : DriverState) (order : Order)
    (h : writeBackOrder feeK filledFee subscribed height feeForZeroDeal st order
      = Except.ok st1) :
    st1.book =
      (if order.TimeInForce = TimeInForce.IOC ∨ order.LeftStock = 0 ∨
          notEnoughMoney order = true
        then (st.book.assign order.OrderID order).delete order.OrderID
        else st.book.assign order.OrderID order) ∧
    st1.keeperOps = st.keeperOps ++
      (if order.TimeInForce = TimeInForce.IOC ∨ order.LeftStock = 0 ∨
          notEnoughMoney order = true
        then [(true, order), (false, order)] else [(true, order)]) ∧
    st1.msgs = st.msgs ++
      (if (order.TimeInForce = TimeInForce.IOC ∨ order.LeftStock = 0 ∨
          notEnoughMoney order = true) ∧ subscribed = true
        then [sendOrderMsg filledFee order height feeForZeroDeal] else []) := by
  unfold writeBackOrder at h
  simp only [] at h
  split_ifs at h with hc hsub
  · obtain ⟨h1, h2, h3⟩ := removeOrder_ok _ _ _ _ _ _ h
    simp [h1, h2, h3, hc, hsub, DriverState.Add]
  · obtain ⟨h1, h2, h3⟩ := removeOrder_ok _ _ _ _ _ _ h
    simp [h1, h2, h3, hc, hsub, DriverState.Add]
  · injection h with h
    subst h
    simp [hc, DriverState.Add]

/-- One round of the write-back loop leaves the entry of the order it handles absent when
the order is terminal and equal to the order otherwise, and every other entry as it was. -/
theorem writeBackOrder_book (feeK : List KeeperCall → AccAddress → Int → Option String)
    (filledFee : Order → Dec) (subscribed : Bool) (height feeForZeroDeal : Int)
    (st st1 : DriverState) (order : Order)
    (h : writeBackOrder feeK filledFee subscribed height feeForZeroDeal st order
      = Except.ok st1) :
    st1.book.find order.OrderID =
      (if order.TimeInForce = TimeInForce.IOC ∨ order.LeftStock = 0 ∨
          notEnoughMoney order = true
        then none else some order) ∧
    ∀ k, k ≠ order.OrderID → st1.book.find k = st.book.find k := by
  obtain ⟨h1, _, _⟩ := writeBackOrder_ok _ _ _ _ _ _ _ _ h
  rw [h1]
  constructor
  · split_ifs
    · exact OrderMap.find_delete_self _ _
    · exact OrderMap.find_assign_self _ _ _
  · intro k hk
    split_ifs
    · rw [OrderMap.find_delete_other _ _ _ hk, OrderMap.find_assign_other _ _ _ _ hk]
    · exact OrderMap.find_assign_other _ _ _ _ hk

/-- A write-back loop that returns has logged, for each order in turn, `Add` and, for a
terminal order, `Remove`; it leaves the entries of other orders as they were and, the order
ids being distinct, the entry of each order absent when terminal and equal to the order
otherwise. -/
theorem writeBack_ok (feeK : List KeeperCall → AccAddress → Int → Option String)
    (filledFee : Order → Dec) (subscribed : Bool) (height feeForZeroDeal : Int) :
    ∀ (orders : List Order) (st st1 : DriverState),
      writeBack feeK filledFee subscribed height feeForZeroDeal st orders = Except.ok st1 →
      st1.keeperOps = st.keeperOps ++
        orders.flatMap (fun o =>
          if o.TimeInForce = TimeInForce.IOC ∨ o.LeftStock = 0 ∨ notEnoughMoney o = true
          then [(true, o), (false, o)] else [(true, o)]) ∧
      (∀ k, (∀ o ∈ orders, o.OrderID ≠ k) → st1.book.find k = st.book.find k) ∧
      ((orders.map Order.OrderID).Nodup → ∀ o ∈ orders,
        st1.book.find o.OrderID =
          (if o.TimeInForce = TimeInForce.IOC ∨ o.LeftStock = 0 ∨ notEnoughMoney o = true
            then none else some o)) := by
  intro orders
  induction orders with
  | nil =>
    intro st st1 h
    simp only [writeBack] at h
    injection h with h
    subst h
    simp
  | cons order rest ih =>
    intro st st1 h
    simp only [writeBack] at h
    split at h
    · exact absurd h (by simp)
    · rename_i st2 hstep
      obtain ⟨i1, i2, i3⟩ := ih st2 st1 h
      obtain ⟨s1, s2, _⟩ := writeBackOrder_ok _ _ _ _ _ _ _ _ hstep
      obtain ⟨b1, b2⟩ := writeBackOrder_book _ _ _ _ _ _ _ _ hstep
      refine ⟨?_, ?_, ?_⟩
      · rw [i1, s2, List.flatMap_cons, List.append_assoc]
      · intro k hk
        rw [i2 k (fun o ho => hk o (List.mem_cons_of_mem _ ho))]
        exact b2 k (fun hc => hk order (List.mem_cons_self _ _) hc.symm)
      · intro hnd o ho
        rw [List.map_cons, List.nodup_cons] at hnd
        rcases List.mem_cons.mp ho with hoeq | hmem
        · subst hoeq
          rw [i2 o.OrderID, b1]
          intro o2 ho2 hc
          exact hnd.1 (List.mem_map.mpr ⟨o2, ho2, hc⟩)
        · exact i3 hnd.2 o hmem

/-- With a fee keeper that does not fail and well-formed trading pairs, `removeOrder`
returns. -/
theorem removeOrder_returns (feeK : List KeeperCall → AccAddress → Int → Option String)
    (filledFee : Order → Dec) (st : DriverState) (order : Order) (feeForZeroDeal : Int)
    (hfee : ∀ calls a n, feeK calls a n = none)
    (hpair : ∃ stock money rest, stringsSplit order.TradingPair = stock :: money :: rest) :
    ∃ st1, removeOrder feeK filledFee st order feeForZeroDeal = Except.ok st1 := by
  obtain ⟨stock, money, rest, hsplit⟩ := hpair
  unfold removeOrder unfreezeCoinsForOrder
  simp only [hsplit, hfee]
  split_ifs <;> exact ⟨_, rfl⟩

/-- With a fee keeper that does not fail and well-formed trading pairs, the write-back loop
returns. -/
theorem writeBack_returns (feeK : List KeeperCall → AccAddress → Int → Option String)
    (filledFee : Order → Dec) (subscribed : Bool) (height feeForZeroDeal : Int)
    (hfee : ∀ calls a n, feeK calls a n = none) :
    ∀ (orders : List Order) (st : DriverState),
      (∀ o ∈ orders, ∃ stock money rest,
        stringsSplit o.TradingPair = stock :: money :: rest) →
      ∃ st1, writeBack feeK filledFee subscribed height feeForZeroDeal st orders
        = Except.ok st1 := by
  intro orders
  induction orders with
  | nil => intro st _; exact ⟨st, rfl⟩
  | cons order rest ih =>
    intro st hp
    have hstep : ∃ st2, writeBackOrder feeK filledFee subscribed height feeForZeroDeal st order
        = Except.ok st2 := by
      unfold writeBackOrder
      simp only []
      split_ifs
      · exact removeOrder_returns _ _ _ _ _ hfee (hp order (List.mem_cons_self _ _))
      · exact removeOrder_returns _ _ _ _ _ hfee (hp order (List.mem_cons_self _ _))
      · exact ⟨_, rfl⟩
    obtain ⟨st2, h2⟩ := hstep
    obtain ⟨st1, h1⟩ := ih st2 (fun o ho => hp o (List.mem_cons_of_mem _ ho))
    exact ⟨st1, by simp only [writeBack, h2, h1]⟩

/-- C6: in the write-back loop over the changed orders of a market (distinct order ids,
`LeftStock ≥ 0`), every order is first `Add`-ed to the order keeper and then removed exactly
when it is terminal (IOC, `LeftStock = 0` or under-frozen); after the loop a changed order is
in the book iff it is GTE, has `LeftStock > 0` and is not under-frozen, and then it is stored
with its post-fill value.  The loop returns when the fee keeper does not fail and the
trading pairs are well-formed. -/
theorem writeBack_keeps_exactly_live_orders
    (feeK : List KeeperCall → AccAddress → Int → Option String)
    (filledFee : Order → Dec) (subscribed : Bool) (height feeForZeroDeal : Int)
    (orders : List Order) (st : DriverState)
    (hids : (orders.map Order.OrderID).Nodup)
    (hleft : ∀ o ∈ orders, 0 ≤ o.LeftStock) :
    (∀ st1, writeBack feeK filledFee subscribed height feeForZeroDeal st orders
        = Except.ok st1 →
      st1.keeperOps = st.keeperOps ++
        orders.flatMap (fun o =>
          if o.TimeInForce = TimeInForce.IOC ∨ o.LeftStock = 0 ∨ notEnoughMoney o = true
          then [(true, o), (false, o)] else [(true, o)]) ∧
      ∀ o ∈ orders,
        (st1.book.find o.OrderID = some o ↔
          (o.TimeInForce = TimeInForce.GTE ∧ 0 < o.LeftStock ∧ notEnoughMoney o = false)) ∧
        (st1.book.find o.OrderID = none ↔
          ¬ (o.TimeInForce = TimeInForce.GTE ∧ 0 < o.LeftStock ∧
            notEnoughMoney o = false))) ∧
    ((∀ calls a n, feeK calls a n = none) →
      (∀ o ∈ orders, ∃ stock money rest,
        stringsSplit o.TradingPair = stock :: money :: rest) →
      ∃ st1, writeBack feeK filledFee subscribed height feeForZeroDeal st orders
        = Except.ok st1) := by
  refine ⟨?_, fun hfee hp => writeBack_returns _ _ _ _ _ hfee orders st hp⟩
  intro st1 h
  obtain ⟨k1, _, k3⟩ := writeBack_ok _ _ _ _ _ orders st st1 h
  refine ⟨k1, ?_⟩
  intro o ho
  have hfind := k3 hids o ho
  have hl := hleft o ho
  have hterm : (o.TimeInForce = TimeInForce.IOC ∨ o.LeftStock = 0 ∨ notEnoughMoney o = true) ↔
      ¬ (o.TimeInForce = TimeInForce.GTE ∧ 0 < o.LeftStock ∧ notEnoughMoney o = false) := by
    cases hT : o.TimeInForce <;> cases hN : notEnoughMoney o <;> (simp; try omega)
  rw [hfind]
  by_cases hc : o.TimeInForce = TimeInForce.IOC ∨ o.LeftStock = 0 ∨ notEnoughMoney o = true
  · have hn := hterm.mp hc
    simp only [if_pos hc]
    exact ⟨⟨fun h => absurd h (by simp), fun h => absurd h hn⟩, ⟨fun _ => hn, fun _ => trivial⟩⟩
  · have hn : o.TimeInForce = TimeInForce.GTE ∧ 0 < o.LeftStock ∧ notEnoughMoney o = false :=
      not_not.mp (fun h => hc (hterm.mpr h))
    simp only [if_neg hc]
    exact ⟨⟨fun _ => hn, fun _ => trivial⟩, ⟨fun h => absurd h (by simp), fun h => absurd hn h⟩⟩

theorem Deal_never_overdraws_witness :
    ∃ r1 r2 : DealResult,
      Deal liveBid s3Ask emptyInfo 4 (NewDec 10) = some r1 ∧
      Deal s3Ask liveBid emptyInfo 4 (NewDec 10) = some r2 ∧
      (0 ≤ r1.wo.Freeze ∧ 0 ≤ r2.other.Freeze) ∧
      (r1.other.Freeze = r1.other.LeftStock ∧ 0 ≤ r1.other.Freeze ∧
        r2.wo.Freeze = r2.wo.LeftStock ∧ 0 ≤ r2.wo.Freeze) := by
  obtain ⟨r1, r2, h1, h2, h3, h4⟩ :=
    Deal_never_overdraws liveBid s3Ask emptyInfo 4 (NewDec 10) "abc" "usd" []
      (by decide) (by decide) (by decide)
  exact ⟨r1, r2, h1, h2,
    h3 (by decide) (by decide) (by decide) (by decide) (by decide) (by decide),
    h4 (by decide) (by decide)⟩

theorem writeBack_keeps_exactly_live_orders_witness :
    ∃ st1,
      writeBack feeNeverFails zeroFilledFee true 100 1000000 emptyDriver
        [s3BidAfter, s3AskAfter, liveBid] = Except.ok st1 ∧
      st1.book.find liveBid.OrderID = some liveBid ∧
      st1.book.find s3BidAfter.OrderID = none ∧
      st1.book.find s3AskAfter.OrderID = none := by
  obtain ⟨hA, hB⟩ :=
    writeBack_keeps_exactly_live_orders feeNeverFails zeroFilledFee true 100 1000000
      [s3BidAfter, s3AskAfter, liveBid] emptyDriver (by decide) (by decide)
  obtain ⟨st1, h⟩ := hB (fun _ _ _ => rfl) (by
    intro o ho
    simp only [List.mem_cons, List.mem_singleton, List.not_mem_nil, or_false] at ho
    have hsplit : stringsSplit o.TradingPair = ["abc", "usd"] := by
      rcases ho with h | h | h <;> rw [h] <;> decide
    exact ⟨"abc", "usd", [], hsplit⟩)
  have hk := (hA st1 h).2
  exact ⟨st1, h, (hk liveBid (by decide)).1.mpr (by decide),
    (hk s3BidAfter (by decide)).2.mpr (by decide),
    (hk s3AskAfter (by decide)).2.mpr (by decide)⟩

/-! ## Cancel reasons -/

/-- C7, as the code has it: for a BUY order handled by the write-back loop, the message of
`sendOrderMsg` carries `NoEnoughMoney` iff the order is not IOC, its `LeftStock` is not 0 and
`Freeze < round(Price * LeftStock)` (rounding half to even); a write-back round that returns
has removed the order with such a message iff moreover the topic is subscribed. -/
theorem NoEnoughMoney_reason_iff
    (feeK : List KeeperCall → AccAddress → Int → Option String)
    (filledFee : Order → Dec) (subscribed : Bool) (height feeForZeroDeal : Int)
    (st : DriverState) (order : Order) (hbuy : order.Side = Side.BUY) :
    ((sendOrderMsg filledFee order height feeForZeroDeal).DelReason
        = DelReason.CancelOrderByNoEnoughMoney ↔
      (order.TimeInForce = TimeInForce.GTE ∧ order.LeftStock ≠ 0 ∧
        order.Freeze < roundHalfEven (order.Price.raw * order.LeftStock))) ∧
    (∀ st1, writeBackOrder feeK filledFee subscribed height feeForZeroDeal st order
        = Except.ok st1 →
      ((st1.book.find order.OrderID = none ∧
          ∃ m, st1.msgs = st.msgs ++ [m] ∧ m.OrderID = order.OrderID ∧
            m.DelReason = DelReason.CancelOrderByNoEnoughMoney) ↔
        (subscribed = true ∧ order.TimeInForce = TimeInForce.GTE ∧ order.LeftStock ≠ 0 ∧
          order.Freeze < roundHalfEven (order.Price.raw * order.LeftStock)))) ∧
    ((∀ calls a n, feeK calls a n = none) →
      (∃ stock money rest, stringsSplit order.TradingPair = stock :: money :: rest) →
      ∃ st1, writeBackOrder feeK filledFee subscribed height feeForZeroDeal st order
        = Except.ok st1) := by
  have hnm := notEnoughMoney_iff order
  have hnm2 : notEnoughMoney order = true ↔
      order.Freeze < roundHalfEven (order.Price.raw * order.LeftStock) :=
    ⟨fun h => (hnm.mp h).2, fun h => hnm.mpr ⟨hbuy, h⟩⟩
  have hreason : (sendOrderMsg filledFee order height feeForZeroDeal).DelReason
        = DelReason.CancelOrderByNoEnoughMoney ↔
      (order.TimeInForce = TimeInForce.GTE ∧ order.LeftStock ≠ 0 ∧
        order.Freeze < roundHalfEven (order.Price.raw * order.LeftStock)) := by
    rw [← hnm2]
    simp only [sendOrderMsg]
    cases hT : order.TimeInForce <;> by_cases hL : order.LeftStock = 0 <;>
      cases hN : notEnoughMoney order <;> simp [hL]
  refine ⟨hreason, ?_, ?_⟩
  · intro st1 h
    obtain ⟨_, _, h3⟩ := writeBackOrder_ok _ _ _ _ _ _ _ _ h
    obtain ⟨b1, _⟩ := writeBackOrder_book _ _ _ _ _ _ _ _ h
    rw [b1, h3]
    constructor
    · rintro ⟨hnone, m, hm, _, hr⟩
      have hterm : order.TimeInForce = TimeInForce.IOC ∨ order.LeftStock = 0 ∨
          notEnoughMoney order = true := by
        by_contra hc
        rw [if_neg hc] at hnone
        exact absurd hnone (by simp)
      by_cases hsub : subscribed = true
      · rw [if_pos ⟨hterm, hsub⟩] at hm
        have hm2 : m = sendOrderMsg filledFee order height feeForZeroDeal := by
          have := List.append_cancel_left hm
          simpa using this.symm
        rw [hm2] at hr
        exact ⟨hsub, hreason.mp hr⟩
      · rw [if_neg (fun hc => hsub hc.2)] at hm
        have := congrArg List.length hm
        simp at this
    · rintro ⟨hsub, hT, hL, hF⟩
      have hterm : order.TimeInForce = TimeInForce.IOC ∨ order.LeftStock = 0 ∨
          notEnoughMoney order = true := Or.inr (Or.inr (hnm2.mpr hF))
      rw [if_pos hterm, if_pos ⟨hterm, hsub⟩]
      exact ⟨rfl, _, rfl, rfl, hreason.mpr ⟨hT, hL, hF⟩⟩
  · intro hfee hp
    unfold writeBackOrder
    simp only []
    split_ifs
    · exact removeOrder_returns _ _ _ _ _ hfee hp
    · exact removeOrder_returns _ _ _ _ _ hfee hp
    · exact ⟨_, rfl⟩

theorem NoEnoughMoney_reason_iff_witness :
    (sendOrderMsg zeroFilledFee s3BidAfter 100 1000000).DelReason
      = DelReason.CancelOrderByNoEnoughMoney :=
  (NoEnoughMoney_reason_iff feeNeverFails zeroFilledFee true 100 1000000 emptyDriver
    s3BidAfter (by decide)).1.mpr (by decide)

/-- C7, counterexample: the IOC bid with left_stock 6 and freeze 55 at price 10 is
under-frozen (`55 < 60` under either rounding), yet the write-back loop removes it with the
reason `IocType`, not `NoEnoughMoney`. -/
theorem NoEnoughMoney_reason_counterexample :
    iocUnderFrozenBid.Side = Side.BUY ∧
    iocUnderFrozenBid.Freeze
      < roundHalfEven (iocUnderFrozenBid.Price.raw * iocUnderFrozenBid.LeftStock) ∧
    iocUnderFrozenBid.Freeze
      < roundHalfAwayFromZero (iocUnderFrozenBid.Price.raw * iocUnderFrozenBid.LeftStock) ∧
    (writeBackOrder feeNeverFails zeroFilledFee true 100 1000000 emptyDriver
        iocUnderFrozenBid).toOption.map
        (fun st1 => (st1.book.find iocUnderFrozenBid.OrderID,
          st1.msgs.map (fun m => m.DelReason)))
      = some (none, [DelReason.CancelOrderByIocType]) := by
  decide

/-! ## The expiry sweep -/

/-- The loop of `filterOldOrders`, started on any accumulator, appends the orders it does
not skip. -/
theorem filterOldOrders_foldl (currHeight lifeTime : Int) (oldOrders acc : List Order) :
    oldOrders.foldl
        (fun orders order =>
          if currHeight - lifeTime < order.ExistBlocks then orders else orders ++ [order])
        acc
      = acc ++ oldOrders.filter (fun o => decide (o.ExistBlocks ≤ currHeight - lifeTime)) := by
  induction oldOrders generalizing acc with
  | nil => simp
  | cons o rest ih =>
    rw [List.foldl_cons, ih]
    by_cases h : currHeight - lifeTime < o.ExistBlocks
    · have h2 : ¬ o.ExistBlocks ≤ currHeight - lifeTime := by omega
      simp [h, h2]
    · have h2 : o.ExistBlocks ≤ currHeight - lifeTime := by omega
      simp [h, h2]

/-- C9, as the code has it: for an order without fills and with a well-formed trading pair,
`removeOrder` unfreezes all of `Freeze` (money for BUY, stock for SELL) and then, only when
`FrozenFee ≠ 0`, unfreezes all of `FrozenFee` and collects `fee_for_zero_deal` through
`SubtractFeeAndCollectFee`, and last deletes the order from the keeper; a failure of
`SubtractFeeAndCollectFee` is a panic carrying the error; with `FrozenFee = 0` no fee is
collected, and with `Freeze = 0` too no keeper call is made before the deletion. -/
theorem removeOrder_zero_deal (feeK : List KeeperCall → AccAddress → Int → Option String)
    (filledFee : Order → Dec) (st : DriverState) (order : Order) (feeForZeroDeal : Int)
    (stock money : String) (rest : List String)
    (hdeal : order.DealStock = 0)
    (hsplit : stringsSplit order.TradingPair = stock :: money :: rest) :
    (order.FrozenFee ≠ 0 →
      feeK
        (st.calls ++
          [ KeeperCall.UnFreezeCoins order.Sender
              (if order.Side = Side.BUY then money else stock) order.Freeze,
            KeeperCall.UnFreezeCoins order.Sender CET order.FrozenFee ])
        order.Sender feeForZeroDeal = none →
      removeOrder feeK filledFee st order feeForZeroDeal =
        Except.ok
          { book := st.book.delete order.OrderID
            calls := st.calls ++
              [ KeeperCall.UnFreezeCoins order.Sender
                  (if order.Side = Side.BUY then money else stock) order.Freeze,
                KeeperCall.UnFreezeCoins order.Sender CET order.FrozenFee,
                KeeperCall.SubtractFeeAndCollectFee order.Sender feeForZeroDeal ]
            keeperOps := st.keeperOps ++ [(false, order)]
            msgs := st.msgs }) ∧
    (∀ err, order.FrozenFee ≠ 0 →
      feeK
        (st.calls ++
          [ KeeperCall.UnFreezeCoins order.Sender
              (if order.Side = Side.BUY then money else stock) order.Freeze,
            KeeperCall.UnFreezeCoins order.Sender CET order.FrozenFee ])
        order.Sender feeForZeroDeal = some err →
      removeOrder feeK filledFee st order feeForZeroDeal
        = Except.error (Panic.feeError err)) ∧
    (order.FrozenFee = 0 → order.Freeze ≠ 0 →
      removeOrder feeK filledFee st order feeForZeroDeal =
        Except.ok
          { book := st.book.delete order.OrderID
            calls := st.calls ++
              [ KeeperCall.UnFreezeCoins order.Sender
                  (if order.Side = Side.BUY then money else stock) order.Freeze ]
            keeperOps := st.keeperOps ++ [(false, order)]
            msgs := st.msgs }) ∧
    (order.FrozenFee = 0 → order.Freeze = 0 →
      removeOrder feeK filledFee st order feeForZeroDeal =
        Except.ok
          { book := st.book.delete order.OrderID
            calls := st.calls
            keeperOps := st.keeperOps ++ [(false, order)]
            msgs := st.msgs }) := by
  have hfee : (CalOrderFee filledFee order feeForZeroDeal).RoundInt64 = feeForZeroDeal := by
    have h0 : ¬ order.DealStock > 0 := by omega
    simp only [CalOrderFee, if_neg h0, Dec.RoundInt64, NewDec,
      chopPrecisionAndRound_mul_precision]
  refine ⟨?_, ?_, ?_, ?_⟩
  · intro hff hk
    have hc : order.Freeze ≠ 0 ∨ order.FrozenFee ≠ 0 := Or.inr hff
    simp only [removeOrder, if_pos hc, unfreezeCoinsForOrder, hsplit, if_pos hff, hfee]
    simp only [List.append_assoc, List.cons_append, List.nil_append] at hk ⊢
    rw [hk]
    rfl
  · intro err hff hk
    have hc : order.Freeze ≠ 0 ∨ order.FrozenFee ≠ 0 := Or.inr hff
    simp only [removeOrder, if_pos hc, unfreezeCoinsForOrder, hsplit, if_pos hff, hfee]
    simp only [List.append_assoc, List.cons_append, List.nil_append] at hk ⊢
    rw [hk]
  · intro hff hfz
    have hc : order.Freeze ≠ 0 ∨ order.FrozenFee ≠ 0 := Or.inl hfz
    have hff2 : ¬ order.FrozenFee ≠ 0 := fun h => h hff
    simp only [removeOrder, if_pos hc, unfreezeCoinsForOrder, hsplit, if_neg hff2]
    rfl
  · intro hff hfz
    have hc : ¬ (order.Freeze ≠ 0 ∨ order.FrozenFee ≠ 0) := by
      rintro (h | h)
      · exact h hfz
      · exact h hff
    simp only [removeOrder, if_neg hc]
    rfl

theorem removeOrder_zero_deal_witness :
    removeOrder feeNeverFails zeroFilledFee emptyDriver s3Bid 1000000 =
      Except.ok
        { book := []
          calls :=
            [ KeeperCall.UnFreezeCoins [1] "usd" 95,
              KeeperCall.UnFreezeCoins [1] CET 1000000,
              KeeperCall.SubtractFeeAndCollectFee [1] 1000000 ]
          keeperOps := [(false, s3Bid)]
          msgs := [] } ∧
    removeOrder feeAlwaysFails zeroFilledFee emptyDriver s3Bid 1000000 =
      Except.error (Panic.feeError "insufficient coins") :=
  ⟨(removeOrder_zero_deal feeNeverFails zeroFilledFee emptyDriver s3Bid 1000000
      "abc" "usd" [] (by decide) (by decide)).1 (by decide) rfl,
   (removeOrder_zero_deal feeAlwaysFails zeroFilledFee emptyDriver s3Bid 1000000
      "abc" "usd" [] (by decide) (by decide)).2.1 "insufficient coins" (by decide) rfl⟩

/-- C9, counterexample: the unfilled GTE bid with `Freeze = 95` and `FrozenFee = 0` is
removed with one `UnFreezeCoins` call and no `SubtractFeeAndCollectFee` call, although
`fee_for_zero_deal` is 1000000. -/
theorem removeOrder_no_fee_counterexample :
    noFeeBid.DealStock = 0 ∧
    (removeOrder feeNeverFails zeroFilledFee emptyDriver noFeeBid 1000000).toOption.map
        (fun st1 => st1.calls)
      = some [KeeperCall.UnFreezeCoins [1] "usd" 95] ∧
    (removeOrder feeNeverFails zeroFilledFee emptyDriver noFeeBid 1000000).toOption.map
        (fun st1 => decide (KeeperCall.SubtractFeeAndCollectFee [1] 1000000 ∈ st1.calls))
      = some false := by
  decide

/-! ## The day-boundary check -/

/-- C10, the code at the failing inputs: with the clean time at 2019-01-01 00:00:00 UTC and
the block time at 2019-02-01 00:00:00 UTC (zone UTC, no integration-net chain id) the two
dates differ and `needRemove` is false; with an integration-net chain id and block times 60
seconds apart `needRemove` is false as well. -/
theorem needRemove_same_day_of_month :
    dateOf utc 1546300800 = (2019, 1, 1) ∧
    dateOf utc 1548979200 = (2019, 2, 1) ∧
    needRemove utc false 1546300800 1548979200 = false ∧
    needRemove utc true 1546300800 1546300860 = false := by
  decide

/-! ## Scenario S3 -/

/-- C17, as the code has it: in scenario S3 the bid (price 10, left_stock 10, freeze 95) is
under-frozen from the start (`95 < 100`), so `GetAmount` of the bid is 0 and the fill amount
`min(GetAmount(bid), GetAmount(ask))` is 0; a `Deal` of amount 4 at price 10 on these orders
gives `deal_money = 40` and leaves the buyer with `freeze = 55` and `left_stock = 6`,
under-frozen (`55 < 60`), for which `sendOrderMsg` reports `NoEnoughMoney`. -/
theorem scenario_S3 :
    notEnoughMoney s3Bid = true ∧
    GetAmount s3Bid = 0 ∧ GetAmount s3Ask = 4 ∧
    min (GetAmount s3Bid) (GetAmount s3Ask) = 0 ∧
    (Deal s3Bid s3Ask emptyInfo 4 (NewDec 10)).map
        (fun r => (r.wo.DealMoney, r.wo.Freeze, r.wo.LeftStock)) = some (40, 55, 6) ∧
    (Deal s3Bid s3Ask emptyInfo 4 (NewDec 10)).map (fun r => r.wo) = some s3BidAfter ∧
    notEnoughMoney s3BidAfter = true ∧
    s3BidAfter.Freeze < roundHalfEven (s3BidAfter.Price.raw * s3BidAfter.LeftStock) ∧
    roundHalfEven (s3BidAfter.Price.raw * s3BidAfter.LeftStock) = 60 ∧
    (sendOrderMsg zeroFilledFee s3BidAfter 100 1000000).DelReason
      = DelReason.CancelOrderByNoEnoughMoney := by
  decide

/-- C17, counterexample: the fill amount of scenario S3 is not 4, because the bid reports
an available amount of 0. -/
theorem scenario_S3_fill_amount_counterexample :
    s3Bid.Freeze < roundHalfEven (s3Bid.Price.raw * s3Bid.LeftStock) ∧
    GetAmount s3Bid = 0 ∧
    min (GetAmount s3Bid) (GetAmount s3Ask) ≠ 4 := by
  decide

/-! ## Genesis validation -/

/-- The parameters `ValidateGenesis` accepts: `CreateMarketFee > 0` and the seven checked
parameters non-negative; `MarketMinExpiredTime` is not among them. -/
theorem ValidateGenesis_iff (p : Params) :
    ValidateGenesis p = none ↔
      (0 < p.CreateMarketFee ∧ 0 ≤ p.FixedTradeFee ∧ 0 ≤ p.GTEOrderLifetime ∧
        0 ≤ p.GTEOrderFeatureFeeByBlocks ∧ 0 ≤ p.MaxExecutedPriceChangeRatio ∧
        0 ≤ p.MarketFeeRate ∧ 0 ≤ p.MarketFeeMin ∧ 0 ≤ p.FeeForZeroDeal) := by
  unfold ValidateGenesis
  split_ifs with h1 h2 h3
  · constructor
    · intro h; exact absurd h (by simp)
    · intro h; omega
  · constructor
    · intro h; exact absurd h (by simp)
    · intro h; omega
  · constructor
    · intro h; exact absurd h (by simp)
    · intro h; omega
  · constructor
    · intro _; omega
    · intro _; rfl

/-- C18, the code at the failing input: the default parameters with
`MarketMinExpiredTime = -1` pass `ValidateGenesis`, although a parameter is negative. -/
theorem ValidateGenesis_accepts_negative_expired_time :
    ({ DefaultParams with MarketMinExpiredTime := -1 } : Params).MarketMinExpiredTime < 0 ∧
    ValidateGenesis { DefaultParams with MarketMinExpiredTime := -1 } = none := by
  decide

/-! ## The default delist waiting time -/

/-- C19, the code at the failing input: `DefaultParams().MarketMinExpiredTime` is the number
of nanoseconds in 7 days, not 604800; at the block of 2019-01-09 00:00:00 UTC the delist
sweep with default parameters leaves a request whose effective time is 8 days back (and the
market) in place, while with the parameter at 604800 the request and the market are swept. -/
theorem default_expired_time_in_nanoseconds :
    DefaultParams.MarketMinExpiredTime = 604800000000000 ∧
    DefaultParams.MarketMinExpiredTime ≠ 604800 ∧
    housekeepingCtx.time - DefaultParams.MarketMinExpiredTime + 1 = -604798453007999 ∧
    1546300800 + 604799 ≤ housekeepingCtx.time ∧
    (removeExpiredMarket feeNeverFails zeroFilledFee housekeepingCtx DefaultParams
        (chainOf [] [(1546300800, "abc/usd")] 0)).toOption.map
        (fun st => (st.delists, st.markets))
      = some ([(1546300800, "abc/usd")], [abcMarket]) ∧
    (removeExpiredMarket feeNeverFails zeroFilledFee housekeepingCtx secondsParams
        (chainOf [] [(1546300800, "abc/usd")] 0)).toOption.map
        (fun st => (st.delists, st.markets))
      = some ([], []) := by
  decide

/-! ## The whitelist store -/

/-- C20, the code at the failing input: after one address is whitelisted for the symbol
`abcd` and nothing for `abc`, `GetWhitelist("abc")` returns one entry, the byte `d` followed
by that address; with an address whitelisted for `abc` as well it returns both. -/
theorem GetWhitelist_leaks_longer_symbol :
    GetWhitelist (addWhitelist [] abcdBytes [[1, 2, 3]]) abcBytes = [[100, 1, 2, 3]] ∧
    GetWhitelist (addWhitelist (addWhitelist [] abcdBytes [[1, 2, 3]]) abcBytes [[7, 8, 9]])
        abcBytes
      = [[7, 8, 9], [100, 1, 2, 3]] ∧
    GetWhitelist (addWhitelist (addWhitelist [] abcdBytes [[1, 2, 3]]) abcBytes [[7, 8, 9]])
        abcdBytes
      = [[1, 2, 3]] := by
  decide

/-! ## Fill messages -/

/-- The messages of `sendFillMsg`: one for each order, in enumeration order, that has
neither `CurrStock = 0` nor `CurrMoney = 0`. -/
theorem sendFillMsg_eq_filter_map (orderOldDeal orderOldMoneys : IntMap)
    (height : Int) (ordersForUpdate : OrderMap) :
    sendFillMsg orderOldDeal orderOldMoneys height ordersForUpdate =
      (ordersForUpdate.filter (fun e =>
          !(decide (e.2.DealStock - orderOldDeal.get e.1 = 0) ||
            decide (e.2.DealMoney - orderOldMoneys.get e.1 = 0)))).map
        (fun e =>
          { OrderID := e.1
            Height := height
            TradingPair := e.2.TradingPair
            Side := e.2.Side
            Price := e.2.Price
            LeftStock := e.2.LeftStock
            Freeze := e.2.Freeze
            DealStock := e.2.DealStock
            DealMoney := e.2.DealMoney
            CurrStock := e.2.DealStock - orderOldDeal.get e.1
            CurrMoney := e.2.DealMoney - orderOldMoneys.get e.1 }) := by
  induction ordersForUpdate with
  | nil => rfl
  | cons e rest ih =>
    obtain ⟨id, order⟩ := e
    by_cases h : order.DealStock - orderOldDeal.get id = 0 ∨
        order.DealMoney - orderOldMoneys.get id = 0
    · have hf : (!(decide (order.DealStock - orderOldDeal.get id = 0) ||
          decide (order.DealMoney - orderOldMoneys.get id = 0))) = false := by
        rcases h with h1 | h2
        · simp [h1]
        · simp [h2]
      simp only [sendFillMsg, if_pos h, ih]
      rw [List.filter_cons, if_neg (by rw [hf]; decide)]
    · have hf : (!(decide (order.DealStock - orderOldDeal.get id = 0) ||
          decide (order.DealMoney - orderOldMoneys.get id = 0))) = true := by
        have h1 : ¬ order.DealStock - orderOldDeal.get id = 0 := fun hc => h (Or.inl hc)
        have h2 : ¬ order.DealMoney - orderOldMoneys.get id = 0 := fun hc => h (Or.inr hc)
        simp [h1, h2]
      simp only [sendFillMsg, if_neg h, ih]
      rw [List.filter_cons, if_pos hf, List.map_cons]

/-- C13, the code at the failing input: an IOC ask submitted at height 99 is in the book of
`abc/usd` when the matching pass of block 100 runs and does not fill it; after `EndBlocker`
the order is still in the book and no message was sent.  The same order submitted at
height 100 is removed with the reason `IocType`. -/
theorem EndBlocker_keeps_stale_IOC_order :
    staleIocAsk.TimeInForce = TimeInForce.IOC ∧
    needRemove utc matchingCtx.integrationNet 1546300800 matchingCtx.time = false ∧
    (EndBlocker (keepersWith []) matchingCtx secondsParams
        (chainOf [staleIocAsk] [] 1546300800)).toOption.map
        (fun st => ((st.books "abc/usd").find staleIocAsk.OrderID, st.msgs))
      = some (some staleIocAsk, []) ∧
    (EndBlocker (keepersWith []) matchingCtx secondsParams
        (chainOf [{ staleIocAsk with Height := 100 }] [] 1546300800)).toOption.map
        (fun st => ((st.books "abc/usd").find staleIocAsk.OrderID,
          st.msgs.map (fun m => m.DelReason)))
      = some (none, [DelReason.CancelOrderByIocType]) := by
  decide

/-- C15, the code at the failing input: in the housekeeping block of 2019-01-09, the topic
subscribed, the delist sweep removes the market `abc/usd` and its one order and emits no
`CancelOrderInfo`; the GTE sweep of the same block (order lifetime 50) removes the same
order with one `CancelOrderInfo` of reason `GteTimeOut`. -/
theorem delist_sweep_emits_no_CancelOrderInfo :
    housekeepingCtx.subscribed = true ∧
    (EndBlocker (keepersWith []) housekeepingCtx secondsParams
        (chainOf [s3Ask] [(1546300800, "abc/usd")] 1546300800)).toOption.map
        (fun st => ((st.books "abc/usd").find s3Ask.OrderID, st.markets))
      = some (none, []) ∧
    (EndBlocker (keepersWith []) housekeepingCtx secondsParams
        (chainOf [s3Ask] [(1546300800, "abc/usd")] 1546300800)).toOption.map
        (fun st => (st.keeperOps, st.msgs))
      = some ([(false, s3Ask)], []) ∧
    (EndBlocker (keepersWith []) housekeepingCtx { secondsParams with GTEOrderLifetime := 50 }
        (chainOf [s3Ask] [] 1546300800)).toOption.map
        (fun st => (st.keeperOps, st.msgs.map (fun m => (m.OrderID, m.DelReason))))
      = some ([(false, s3Ask)], [(s3Ask.OrderID, DelReason.CancelOrderByGteTimeOut)]) := by
  refine ⟨by decide, by decide, by decide, by decide⟩

/-! ## Enumeration order of the changed-order map -/

/-- A `removeOrder` that returns has appended the removal calls of the order. -/
theorem removeOrder_calls (feeK : List KeeperCall → AccAddress → Int → Option String)
    (filledFee : Order → Dec) (st st1 : DriverState) (order : Order) (feeForZeroDeal : Int)
    (h : removeOrder feeK filledFee st order feeForZeroDeal = Except.ok st1) :
    st1.calls = st.calls ++ removalCalls filledFee order feeForZeroDeal := by
  unfold removalCalls
  unfold removeOrder unfreezeCoinsForOrder at h ⊢
  simp only [emptyDriver, feeNeverFails, DriverState.Remove, List.nil_append] at h ⊢
  by_cases hc : order.Freeze ≠ 0 ∨ order.FrozenFee ≠ 0
  · simp only [if_pos hc] at h ⊢
    cases hsplit : stringsSplit order.TradingPair with
    | nil => simp [hsplit] at h
    | cons stock t =>
      cases t with
      | nil => simp [hsplit] at h
      | cons money t2 =>
        simp only [hsplit] at h ⊢
        by_cases hff : order.FrozenFee ≠ 0
        · simp only [if_pos hff] at h ⊢
          split at h
          · exact absurd h (by simp)
          · rename_i calls1 heq
            split at heq
            · exact absurd heq (by simp)
            · injection heq with heq
              injection h with h
              subst h
              subst heq
              simp
        · simp only [if_neg hff] at h ⊢
          injection h with h
          subst h
          simp
  · simp only [if_neg hc] at h ⊢
    injection h with h
    subst h
    simp

/-- A write-back loop that returns has appended, for each order in turn, its message when
it is terminal and the topic is subscribed, and its removal calls when it is terminal. -/
theorem writeBack_logs (feeK : List KeeperCall → AccAddress → Int → Option String)
    (filledFee : Order → Dec) (subscribed : Bool) (height feeForZeroDeal : Int) :
    ∀ (orders : List Order) (st st1 : DriverState),
      writeBack feeK filledFee subscribed height feeForZeroDeal st orders = Except.ok st1 →
      st1.msgs = st.msgs ++
        orders.flatMap (fun o =>
          if (o.TimeInForce = TimeInForce.IOC ∨ o.LeftStock = 0 ∨ notEnoughMoney o = true) ∧
              subscribed = true
          then [sendOrderMsg filledFee o height feeForZeroDeal] else []) ∧
      st1.calls = st.calls ++
        orders.flatMap (fun o =>
          if o.TimeInForce = TimeInForce.IOC ∨ o.LeftStock = 0 ∨ notEnoughMoney o = true
          then removalCalls filledFee o feeForZeroDeal else []) := by
  intro orders
  induction orders with
  | nil =>
    intro st st1 h
    simp only [writeBack] at h
    injection h with h
    subst h
    simp
  | cons order rest ih =>
    intro st st1 h
    simp only [writeBack] at h
    split at h
    · exact absurd h (by simp)
    · rename_i st2 hstep
      obtain ⟨i1, i2⟩ := ih st2 st1 h
      obtain ⟨_, _, s3⟩ := writeBackOrder_ok _ _ _ _ _ _ _ _ hstep
      have hcalls : st2.calls = st.calls ++
          (if order.TimeInForce = TimeInForce.IOC ∨ order.LeftStock = 0 ∨
              notEnoughMoney order = true
            then removalCalls filledFee order feeForZeroDeal else []) := by
        unfold writeBackOrder at hstep
        simp only [] at hstep
        split_ifs at hstep with hc hsub
        · rw [removeOrder_calls _ _ _ _ _ _ hstep]
          simp [DriverState.Add, hc]
        · rw [removeOrder_calls _ _ _ _ _ _ hstep]
          simp [DriverState.Add, hc]
        · injection hstep with hstep
          subst hstep
          simp [DriverState.Add, hc]
      constructor
      · rw [i1, s3, List.flatMap_cons, List.append_assoc]
      · rw [i2, hcalls, List.flatMap_cons, List.append_assoc]

/-- C16, as the code has it: the write-back loop and `sendFillMsg` follow the enumeration
order of the changed-order map.  For two enumerations of the same map (distinct order ids)
on which the write-back returns, the cancel messages, the order-keeper calls and the
balance and fee keeper calls are the same up to their order, and the resulting book is the
same; the fill messages of `sendFillMsg` are the same up to their order. -/
theorem outputs_up_to_enumeration_order
    (feeK : List KeeperCall → AccAddress → Int → Option String)
    (filledFee : Order → Dec) (subscribed : Bool) (height feeForZeroDeal : Int)
    (orders1 orders2 : List Order) (st st1 st2 : DriverState)
    (hperm : List.Perm orders1 orders2)
    (hids : (orders1.map Order.OrderID).Nodup)
    (h1 : writeBack feeK filledFee subscribed height feeForZeroDeal st orders1 = Except.ok st1)
    (h2 : writeBack feeK filledFee subscribed height feeForZeroDeal st orders2 = Except.ok st2) :
    List.Perm st1.msgs st2.msgs ∧
    List.Perm st1.keeperOps st2.keeperOps ∧
    List.Perm st1.calls st2.calls ∧
    (∀ k, st1.book.find k = st2.book.find k) ∧
    (∀ (orderOldDeal orderOldMoneys : IntMap) (m1 m2 : OrderMap), List.Perm m1 m2 →
      List.Perm (sendFillMsg orderOldDeal orderOldMoneys height m1)
        (sendFillMsg orderOldDeal orderOldMoneys height m2)) := by
  obtain ⟨a1, a2⟩ := writeBack_logs _ _ _ _ _ orders1 st st1 h1
  obtain ⟨b1, b2⟩ := writeBack_logs _ _ _ _ _ orders2 st st2 h2
  obtain ⟨c1, c2, c3⟩ := writeBack_ok _ _ _ _ _ orders1 st st1 h1
  obtain ⟨d1, d2, d3⟩ := writeBack_ok _ _ _ _ _ orders2 st st2 h2
  have hids2 : (orders2.map Order.OrderID).Nodup :=
    (List.Perm.nodup_iff (List.Perm.map _ hperm)).mp hids
  refine ⟨?_, ?_, ?_, ?_, ?_⟩
  · rw [a1, b1]
    exact List.Perm.append_left _ (List.Perm.flatMap_right _ hperm)
  · rw [c1, d1]
    exact List.Perm.append_left _ (List.Perm.flatMap_right _ hperm)
  · rw [a2, b2]
    exact List.Perm.append_left _ (List.Perm.flatMap_right _ hperm)
  · intro k
    by_cases hk : ∃ o ∈ orders1, o.OrderID = k
    · obtain ⟨o, ho, hok⟩ := hk
      subst hok
      rw [c3 hids o ho, d3 hids2 o (hperm.mem_iff.mp ho)]
    · have hk1 : ∀ o ∈ orders1, o.OrderID ≠ k := fun o ho hc => hk ⟨o, ho, hc⟩
      have hk2 : ∀ o ∈ orders2, o.OrderID ≠ k :=
        fun o ho hc => hk ⟨o, hperm.mem_iff.mpr ho, hc⟩
      rw [c2 k hk1, d2 k hk2]
  · intro orderOldDeal orderOldMoneys m1 m2 hm
    rw [sendFillMsg_eq_filter_map, sendFillMsg_eq_filter_map]
    exact List.Perm.map _ (List.Perm.filter _ hm)

theorem outputs_up_to_enumeration_order_witness :
    ∃ st1 st2,
      writeBack feeNeverFails zeroFilledFee true 100 1000000 emptyDriver
        [s3BidAfter, s3AskAfter] = Except.ok st1 ∧
      writeBack feeNeverFails zeroFilledFee true 100 1000000 emptyDriver
        [s3AskAfter, s3BidAfter] = Except.ok st2 ∧
      List.Perm st1.msgs st2.msgs ∧ List.Perm st1.keeperOps st2.keeperOps ∧
      List.Perm st1.calls st2.calls ∧ (∀ k, st1.book.find k = st2.book.find k) := by
  obtain ⟨st1, h1⟩ := writeBack_returns feeNeverFails zeroFilledFee true 100 1000000
    (fun _ _ _ => rfl) [s3BidAfter, s3AskAfter] emptyDriver (by
      intro o ho
      simp only [List.mem_cons, List.mem_singleton, List.not_mem_nil, or_false] at ho
      have hsplit : stringsSplit o.TradingPair = ["abc", "usd"] := by
        rcases ho with h | h <;> rw [h] <;> decide
      exact ⟨"abc", "usd", [], hsplit⟩)
  obtain ⟨st2, h2⟩ := writeBack_returns feeNeverFails zeroFilledFee true 100 1000000
    (fun _ _ _ => rfl) [s3AskAfter, s3BidAfter] emptyDriver (by
      intro o ho
      simp only [List.mem_cons, List.mem_singleton, List.not_mem_nil, or_false] at ho
      have hsplit : stringsSplit o.TradingPair = ["abc", "usd"] := by
        rcases ho with h | h <;> rw [h] <;> decide
      exact ⟨"abc", "usd", [], hsplit⟩)
  obtain ⟨p1, p2, p3, p4, _⟩ :=
    outputs_up_to_enumeration_order feeNeverFails zeroFilledFee true 100 1000000
      [s3BidAfter, s3AskAfter] [s3AskAfter, s3BidAfter] emptyDriver st1 st2
      (List.Perm.swap _ _ _) (by decide) h1 h2
  exact ⟨st1, st2, h1, h2, p1, p2, p3, p4⟩

/-- C16, counterexample: the changed-order map with the two orders of scenario S3 after
their fill, enumerated in its two orders, gives two different sequences of cancel messages
and two different sequences of fee collections in the write-back loop. -/
theorem enumeration_order_counterexample :
    (writeBack feeNeverFails zeroFilledFee true 100 1000000 emptyDriver
        [s3BidAfter, s3AskAfter]).toOption.map
        (fun st => (st.msgs.map (fun m => m.DelReason), st.calls.getLast?))
      = some ([DelReason.CancelOrderByNoEnoughMoney, DelReason.CancelOrderByAllFilled],
          some (KeeperCall.SubtractFeeAndCollectFee [2] 0)) ∧
    (writeBack feeNeverFails zeroFilledFee true 100 1000000 emptyDriver
        [s3AskAfter, s3BidAfter]).toOption.map
        (fun st => (st.msgs.map (fun m => m.DelReason), st.calls.getLast?))
      = some ([DelReason.CancelOrderByAllFilled, DelReason.CancelOrderByNoEnoughMoney],
          some (KeeperCall.SubtractFeeAndCollectFee [1] 0)) := by
  refine ⟨by decide, by decide⟩

/-! ## The last executed price -/

/-- A `Deal` that returns has recorded its price as the last price and left the
changed-order map non-empty. -/
theorem Deal_lastPrice (wo other : Order) (info : InfoForDeal) (amount : Int) (price : Dec)
    (r : DealResult) (h : Deal wo other info amount price = some r) :
    r.info.lastPrice = price ∧ r.info.changedOrders ≠ [] := by
  unfold Deal at h
  simp only [] at h
  split at h
  · injection h with h
    subst h
    refine ⟨rfl, ?_⟩
    simp only []
    generalize OrderMap.assign info.changedOrders _ _ = m
    cases m with
    | nil => simp [OrderMap.assign]
    | cons p rest =>
      obtain ⟨k0, v0⟩ := p
      simp only [OrderMap.assign]
      split_ifs <;> simp
  · exact absurd h (by simp)

/-- The fills that `applyFills` executes are appended to the log; the last price it leaves
is the price of the last fill executed, or the last price it started with when it executed
none; and once a fill is executed the changed-order map is not empty. -/
theorem applyFills_lastPrice :
    ∀ (fills : List Fill) (bids asks : OrderMap) (info : InfoForDeal) (deals : List Fill)
      (bids1 asks1 : OrderMap) (info1 : InfoForDeal) (deals1 : List Fill),
      applyFills fills bids asks info deals = some (bids1, asks1, info1, deals1) →
      ∃ executed, deals1 = deals ++ executed ∧
        info1.lastPrice =
          (match executed.getLast? with
            | some f => f.price
            | none => info.lastPrice) ∧
        ((info.changedOrders ≠ [] ∨ executed ≠ []) → info1.changedOrders ≠ []) := by
  intro fills
  induction fills with
  | nil =>
    intro bids asks info deals bids1 asks1 info1 deals1 h
    simp only [applyFills, Option.some.injEq, Prod.mk.injEq] at h
    obtain ⟨_, _, h3, h4⟩ := h
    subst h3
    subst h4
    refine ⟨[], by simp, rfl, ?_⟩
    rintro (h | h)
    · exact h
    · exact absurd rfl h
  | cons f rest ih =>
    intro bids asks info deals bids1 asks1 info1 deals1 h
    simp only [applyFills] at h
    split at h
    · rename_i b a hb ha
      split at h
      · exact absurd h (by simp)
      · rename_i r hr
        obtain ⟨executed, e1, e2, e3⟩ := ih _ _ _ _ _ _ _ _ h
        obtain ⟨d1, d2⟩ := Deal_lastPrice _ _ _ _ _ _ hr
        refine ⟨f :: executed, by rw [e1]; simp, ?_, fun _ => e3 (Or.inl d2)⟩
        rw [e2, d1]
        cases executed with
        | nil => rfl
        | cons g t =>
          rw [List.getLast?_cons_cons]
          cases hl : (g :: t).getLast? with
          | none => simp at hl
          | some x => rfl
    · exact ih _ _ _ _ _ _ _ _ h

theorem includeIOC_ne_nil :
    ∀ (orders : List Order) (m : OrderMap), m ≠ [] → includeIOC m orders ≠ [] := by
  intro orders
  induction orders with
  | nil => intro m h; exact h
  | cons o rest ih =>
    intro m h
    simp only [includeIOC]
    split_ifs
    · split
      · exact ih m h
      · apply ih
        cases m with
        | nil => exact absurd rfl h
        | cons p t =>
          obtain ⟨k0, v0⟩ := p
          simp only [OrderMap.assign]
          split_ifs <;> simp
    · exact ih m h

/-- A `runMatch` that returns gives as last price the price of the last fill executed, or
zero when no fill was executed; after a fill there are orders to update; its only panic is
the index panic. -/
theorem runMatch_lastPrice (matcher : Dec → Dec → Dec → List Order → List Order → List Fill)
    (IsForbiddenByTokenIssuer : String → AccAddress → Bool) (subscribed : Bool)
    (midPrice : Dec) (ratio : Int) (symbol : String) (book : OrderMap) (currHeight : Int) :
    (∀ r, runMatch matcher IsForbiddenByTokenIssuer subscribed midPrice ratio symbol book
        currHeight = Except.ok r →
      r.lastPrice =
        (match r.deals.getLast? with
          | some f => f.price
          | none => NewDec 0) ∧
      (r.deals ≠ [] → r.ordersForUpdate ≠ [])) ∧
    (∀ p, runMatch matcher IsForbiddenByTokenIssuer subscribed midPrice ratio symbol book
        currHeight = Except.error p → p = Panic.indexOutOfRange) := by
  constructor
  · intro r h
    unfold runMatch at h
    simp only [] at h
    split at h
    · split at h
      · exact absurd h (by simp)
      · rename_i bids1 asks1 info1 deals1 happly
        injection h with h
        subst h
        obtain ⟨executed, e1, e2, e3⟩ := applyFills_lastPrice _ _ _ _ _ _ _ _ _ happly
        simp only [List.nil_append] at e1
        subst e1
        refine ⟨e2, fun hne => includeIOC_ne_nil _ _ (e3 (Or.inr hne))⟩
    · exact absurd h (by simp)
  · intro p h
    unfold runMatch at h
    simp only [] at h
    split at h
    · split at h
      · injection h with h; exact h.symm
      · exact absurd h (by simp)
    · injection h with h; exact h.symm

theorem findMarket_SetMarket_self (markets : List MarketInfo) (mi : MarketInfo) :
    findMarket (SetMarket markets mi) mi.symbol = some mi := by
  induction markets with
  | nil => simp [SetMarket, findMarket]
  | cons m rest ih =>
    by_cases h : m.symbol = mi.symbol
    · simp [SetMarket, findMarket, h]
    · simp [SetMarket, findMarket, h, ih]

theorem findMarket_SetMarket_other (markets : List MarketInfo) (mi : MarketInfo) (s : String)
    (hs : s ≠ mi.symbol) :
    findMarket (SetMarket markets mi) s = findMarket markets s := by
  have hs2 : ¬ mi.symbol = s := fun h => hs h.symm
  induction markets with
  | nil => simp [SetMarket, findMarket, hs2]
  | cons m rest ih =>
    by_cases h : m.symbol = mi.symbol
    · have h3 : ¬ m.symbol = s := fun hc => hs2 (h.symm.trans hc)
      simp [SetMarket, findMarket, h, hs2]
    · by_cases h2 : m.symbol = s
      · subst h2
        simp [SetMarket, findMarket, h]
      · simp [SetMarket, findMarket, h, h2, ih]

theorem findMarket_of_mem (markets : List MarketInfo)
    (hnd : (markets.map MarketInfo.symbol).Nodup) (mi : MarketInfo) (hmem : mi ∈ markets) :
    findMarket markets mi.symbol = some mi := by
  induction markets with
  | nil => exact absurd hmem (List.not_mem_nil _)
  | cons m rest ih =>
    rw [List.map_cons, List.nodup_cons] at hnd
    rcases List.mem_cons.mp hmem with h | h
    · subst h
      simp [findMarket]
    · have hne : ¬ m.symbol = mi.symbol := by
        intro hc
        exact hnd.1 (List.mem_map.mpr ⟨mi, h, hc.symm⟩)
      simp only [findMarket, if_neg hne]
      exact ih hnd.2 h

/-- What the first loop leaves for one market: the price of a skipped market is the nil
zero value and it has nothing to update; the price of a matched market is the price of the
last fill executed, or zero without a fill; after a fill there are orders to update. -/
theorem marketPass_spec (ks : Keepers) (ctx : BlockCtx) (marketParams : Params)
    (books : String → OrderMap) (mi : MarketInfo) :
    (∀ pass, marketPass ks ctx marketParams books mi = Except.ok pass →
      (pass.newPrice = none → pass.ordersForUpdate = [] ∧ pass.deals = []) ∧
      (pass.deals ≠ [] → pass.ordersForUpdate ≠ []) ∧
      (∀ p, pass.newPrice = some p →
        p = (match pass.deals.getLast? with
          | some f => f.price
          | none => NewDec 0)) ∧
      ((ks.IsTokenForbidden mi.Stock || ks.IsTokenForbidden mi.Money) = true →
        pass.deals = [])) ∧
    (∀ p, marketPass ks ctx marketParams books mi = Except.error p →
      p = Panic.indexOutOfRange) := by
  constructor
  · intro pass h
    unfold marketPass at h
    split_ifs at h with hf
    · injection h with h
      subst h
      simp
    · split at h
      · exact absurd h (by simp)
      · rename_i r hr
        injection h with h
        subst h
        obtain ⟨r1, r2⟩ := (runMatch_lastPrice _ _ _ _ _ _ _ _).1 r hr
        refine ⟨fun hc => absurd hc (by simp), r2, ?_, fun hc => absurd hc hf⟩
        intro p hp
        simp only [Option.some.injEq] at hp
        rw [← hp, r1]
  · intro p h
    unfold marketPass at h
    split_ifs at h with hf
    split at h
    · rename_i p2 hr
      injection h with h
      subst h
      exact (runMatch_lastPrice _ _ _ _ _ _ _ _).2 _ hr
    · exact absurd h (by simp)

/-- The results of the first loop, index by index, are the results of `marketPass`. -/
theorem matchAll_zip (ks : Keepers) (ctx : BlockCtx) (marketParams : Params)
    (books : String → OrderMap) :
    ∀ (markets : List MarketInfo) (passes : List PassResult),
      matchAll ks ctx marketParams books markets = Except.ok passes →
      (markets.zip passes).map Prod.fst = markets ∧
      ∀ e ∈ markets.zip passes, marketPass ks ctx marketParams books e.1 = Except.ok e.2 := by
  intro markets
  induction markets with
  | nil =>
    intro passes _
    simp
  | cons mi rest ih =>
    intro passes h
    simp only [matchAll] at h
    split at h
    · exact absurd h (by simp)
    · rename_i r hr
      split at h
      · exact absurd h (by simp)
      · rename_i rs hrs
        injection h with h
        subst h
        obtain ⟨i1, i2⟩ := ih rs hrs
        constructor
        · simp [i1]
        · intro e he
          simp only [List.zip_cons_cons, List.mem_cons] at he
          rcases he with he | he
          · subst he; exact hr
          · exact i2 e he

theorem matchAll_error (ks : Keepers) (ctx : BlockCtx) (marketParams : Params)
    (books : String → OrderMap) :
    ∀ (markets : List MarketInfo) (p : Panic),
      matchAll ks ctx marketParams books markets = Except.error p →
      p = Panic.indexOutOfRange := by
  intro markets
  induction markets with
  | nil => intro p h; simp [matchAll] at h
  | cons mi rest ih =>
    intro p h
    simp only [matchAll] at h
    split at h
    · rename_i p2 hr
      injection h with h
      subst h
      exact (marketPass_spec _ _ _ _ _).2 _ hr
    · split at h
      · rename_i p2 hrs
        injection h with h
        subst h
        exact ih _ hrs
      · exact absurd h (by simp)

theorem removeOrder_error (feeK : List KeeperCall → AccAddress → Int → Option String)
    (filledFee : Order → Dec) (st : DriverState) (order : Order) (feeForZeroDeal : Int)
    (p : Panic) (h : removeOrder feeK filledFee st order feeForZeroDeal = Except.error p) :
    p ≠ Panic.nilDereference := by
  unfold removeOrder at h
  split_ifs at h
  split at h
  · rename_i p2 hu
    injection h with h
    subst h
    unfold unfreezeCoinsForOrder at hu
    split at hu
    · simp only [] at hu
      by_cases hff : order.FrozenFee ≠ 0
      · rw [if_pos hff] at hu
        split at hu
        · injection hu with hu
          subst hu
          simp
        · exact absurd hu (by simp)
      · rw [if_neg hff] at hu
        exact absurd hu (by simp)
    · injection hu with hu
      subst hu
      simp
  · exact absurd h (by simp)

theorem writeBack_error (feeK : List KeeperCall → AccAddress → Int → Option String)
    (filledFee : Order → Dec) (subscribed : Bool) (height feeForZeroDeal : Int) :
    ∀ (orders : List Order) (st : DriverState) (p : Panic),
      writeBack feeK filledFee subscribed height feeForZeroDeal st orders = Except.error p →
      p ≠ Panic.nilDereference := by
  intro orders
  induction orders with
  | nil => intro st p h; simp [writeBack] at h
  | cons order rest ih =>
    intro st p h
    simp only [writeBack] at h
    split at h
    · rename_i p2 hstep
      injection h with h
      subst h
      unfold writeBackOrder at hstep
      simp only [] at hstep
      split_ifs at hstep
      · exact removeOrder_error _ _ _ _ _ _ hstep
      · exact removeOrder_error _ _ _ _ _ _ hstep
    · exact ih _ _ h

/-- The market store after the second-loop body of one market: when a fill was executed
(at a non-zero price) the market is stored with the price of the last fill, else the store
is as it was. -/
theorem writeBackMarket_markets (ks : Keepers) (ctx : BlockCtx) (marketParams : Params)
    (books : String → OrderMap) (st st1 : ChainState) (mi : MarketInfo) (pass : PassResult)
    (hpass : marketPass ks ctx marketParams books mi = Except.ok pass)
    (hnz : ∀ f ∈ pass.deals, f.price.raw ≠ 0)
    (h : writeBackMarket ks ctx marketParams st mi pass = Except.ok st1) :
    st1.markets =
      (match pass.deals.getLast? with
        | some f => SetMarket st.markets { mi with LastExecutedPrice := f.price }
        | none => st.markets) := by
  obtain ⟨q1, q2, q3, _⟩ := (marketPass_spec _ _ _ _ _).1 pass hpass
  unfold writeBackMarket at h
  split_ifs at h with hlen
  · injection h with h
    subst h
    have hd : pass.deals = [] := by
      by_contra hc
      exact q2 hc (List.length_eq_zero.mp hlen)
    rw [hd]
    rfl
  · split at h
    · exact absurd h (by simp)
    · rename_i d1 hwb
      simp only [] at h
      split at h
      · exact absurd h (by simp)
      · rename_i newPrice hnp
        have hp := q3 newPrice hnp
        cases hl : pass.deals.getLast? with
        | none =>
          rw [hl] at hp
          have hz : newPrice.IsZero = true := by rw [hp]; decide
          simp only [hz, Bool.not_true] at h
          injection h with h
          subst h
          rfl
        | some f =>
          rw [hl] at hp
          have hmem : f ∈ pass.deals := List.mem_of_getLast?_eq_some hl
          have hz : newPrice.IsZero = false := by
            rw [hp]
            simp only [Dec.IsZero, decide_eq_false_iff_not]
            exact hnz f hmem
          simp only [hz, Bool.not_false, if_true] at h
          injection h with h
          subst h
          rw [hp]
          rfl

theorem writeBackMarket_error (ks : Keepers) (ctx : BlockCtx) (marketParams : Params)
    (books : String → OrderMap) (st : ChainState) (mi : MarketInfo) (pass : PassResult)
    (hpass : marketPass ks ctx marketParams books mi = Except.ok pass) (p : Panic)
    (h : writeBackMarket ks ctx marketParams st mi pass = Except.error p) :
    p ≠ Panic.nilDereference := by
  obtain ⟨q1, _, _, _⟩ := (marketPass_spec _ _ _ _ _).1 pass hpass
  unfold writeBackMarket at h
  split_ifs at h with hlen
  split at h
  · rename_i p2 hwb
    injection h with h
    subst h
    exact writeBack_error _ _ _ _ _ _ _ _ hwb
  · simp only [] at h
    split at h
    · rename_i hnp
      exact absurd (List.length_eq_zero.mpr (q1 hnp).1) hlen
    · split_ifs at h

/-- The market store after the second loop: the market of each entry (distinct symbols) is
stored with the price of the last fill executed for it, or is as before without a fill;
other markets are as before.  The loop does not dereference a nil price. -/
theorem writeBackAll_markets (ks : Keepers) (ctx : BlockCtx) (marketParams : Params)
    (books : String → OrderMap) :
    ∀ (entries : List (MarketInfo × PassResult)) (st : ChainState),
      (∀ e ∈ entries, marketPass ks ctx marketParams books e.1 = Except.ok e.2) →
      (∀ p, writeBackAll ks ctx marketParams entries st = Except.error p →
        p ≠ Panic.nilDereference) ∧
      ∀ st1, writeBackAll ks ctx marketParams entries st = Except.ok st1 →
        (∀ e ∈ entries, ∀ f ∈ e.2.deals, f.price.raw ≠ 0) →
        (∀ s, (∀ e ∈ entries, e.1.symbol ≠ s) →
          findMarket st1.markets s = findMarket st.markets s) ∧
        ((entries.map (fun e => e.1.symbol)).Nodup → ∀ e ∈ entries,
          findMarket st1.markets e.1.symbol =
            (match e.2.deals.getLast? with
              | some f => some { e.1 with LastExecutedPrice := f.price }
              | none => findMarket st.markets e.1.symbol)) := by
  intro entries
  induction entries with
  | nil =>
    intro st _
    constructor
    · intro p h; simp [writeBackAll] at h
    · intro st1 h _
      simp only [writeBackAll] at h
      injection h with h
      subst h
      simp
  | cons e rest ih =>
    intro st hpass
    obtain ⟨mi, pass⟩ := e
    have hp0 : marketPass ks ctx marketParams books mi = Except.ok pass :=
      hpass (mi, pass) (List.mem_cons_self _ _)
    have hprest : ∀ e ∈ rest, marketPass ks ctx marketParams books e.1 = Except.ok e.2 :=
      fun e he => hpass e (List.mem_cons_of_mem _ he)
    constructor
    · intro p h
      simp only [writeBackAll] at h
      split at h
      · rename_i p2 hstep
        injection h with h
        subst h
        exact writeBackMarket_error _ _ _ _ _ _ _ hp0 _ hstep
      · rename_i st2 hstep
        exact (ih st2 hprest).1 p h
    · intro st1 h hnz
      simp only [writeBackAll] at h
      split at h
      · exact absurd h (by simp)
      · rename_i st2 hstep
        have hm := writeBackMarket_markets _ _ _ _ _ _ _ _ hp0
          (hnz (mi, pass) (List.mem_cons_self _ _)) hstep
        obtain ⟨i1, i2⟩ := (ih st2 hprest).2 st1 h
          (fun e he => hnz e (List.mem_cons_of_mem _ he))
        have hstep_other : ∀ s, s ≠ mi.symbol →
            findMarket st2.markets s = findMarket st.markets s := by
          intro s hs
          rw [hm]
          cases pass.deals.getLast? with
          | none => rfl
          | some f => exact findMarket_SetMarket_other _ _ _ hs
        constructor
        · intro s hs
          rw [i1 s (fun e he => hs e (List.mem_cons_of_mem _ he))]
          exact hstep_other s (fun hc => hs (mi, pass) (List.mem_cons_self _ _) hc.symm)
        · intro hnd e he
          rw [List.map_cons, List.nodup_cons] at hnd
          rcases List.mem_cons.mp he with heq | hmem
          · subst heq
            rw [i1 mi.symbol (fun e2 he2 hc => hnd.1 (List.mem_map.mpr ⟨e2, he2, hc⟩)), hm]
            cases pass.deals.getLast? with
            | none => rfl
            | some f =>
              exact findMarket_SetMarket_self st.markets { mi with LastExecutedPrice := f.price }
          · rw [i2 hnd.2 e hmem]
            have hne : e.1.symbol ≠ mi.symbol := by
              intro hc
              exact hnd.1 (List.mem_map.mpr ⟨e, hmem, hc⟩)
            cases e.2.deals.getLast? with
            | none => exact hstep_other _ hne
            | some f => rfl

/-- C12: after a matching block (every fill at a non-zero price, markets with distinct
symbols) the stored `LastExecutedPrice` of each market is the price of the last fill
executed for it in the block when there was one, and is unchanged otherwise (no fill, or
the market skipped for a globally forbidden token, for which no fill is executed); the
never-initialised price of a skipped market is not inspected: `EndBlocker` does not
dereference a nil price. -/
theorem EndBlocker_last_executed_price (ks : Keepers) (ctx : BlockCtx) (marketParams : Params)
    (st : ChainState)
    (hmatch : needRemove ks.zone ctx.integrationNet st.cleanTime ctx.time = false)
    (hsym : (st.markets.map MarketInfo.symbol).Nodup)
    (hnz : ∀ mi ∈ st.markets, ∀ pass,
      marketPass ks ctx marketParams st.books mi = Except.ok pass →
      ∀ f ∈ pass.deals, f.price.raw ≠ 0) :
    EndBlocker ks ctx marketParams st ≠ Except.error Panic.nilDereference ∧
    ∀ st1, EndBlocker ks ctx marketParams st = Except.ok st1 → ∀ mi ∈ st.markets,
      ∃ pass, marketPass ks ctx marketParams st.books mi = Except.ok pass ∧
        ((ks.IsTokenForbidden mi.Stock || ks.IsTokenForbidden mi.Money) = true →
          pass.deals = []) ∧
        findMarket st1.markets mi.symbol =
          some { mi with
            LastExecutedPrice :=
              (match pass.deals.getLast? with
                | some f => f.price
                | none => mi.LastExecutedPrice) } := by
  have hnr : ¬ needRemove ks.zone ctx.integrationNet st.cleanTime ctx.time = true := by
    rw [hmatch]; decide
  unfold EndBlocker
  rw [if_neg hnr]
  cases hall : matchAll ks ctx marketParams st.books st.markets with
  | error p =>
    have hp := matchAll_error _ _ _ _ _ _ hall
    subst hp
    simp
  | ok passes =>
    obtain ⟨z1, z2⟩ := matchAll_zip _ _ _ _ _ _ hall
    simp only []
    obtain ⟨w1, w2⟩ := writeBackAll_markets ks ctx marketParams st.books
      (st.markets.zip passes)
      { st with
        calls := st.calls ++ passes.flatMap (fun r => r.calls)
        fillMsgs := st.fillMsgs ++ passes.flatMap (fun r => r.fillMsgs) } z2
    constructor
    · intro hc
      exact w1 _ hc rfl
    · intro st1 h mi hmi
      have hmem : mi ∈ (st.markets.zip passes).map Prod.fst := by rw [z1]; exact hmi
      obtain ⟨e, he, hemi⟩ := List.mem_map.mp hmem
      have hnz2 : ∀ e ∈ st.markets.zip passes, ∀ f ∈ e.2.deals, f.price.raw ≠ 0 := by
        intro e2 he2
        have hm2 : e2.1 ∈ st.markets := by
          rw [← z1]
          exact List.mem_map.mpr ⟨e2, he2, rfl⟩
        exact hnz e2.1 hm2 e2.2 (z2 e2 he2)
      have hnd : ((st.markets.zip passes).map (fun e => e.1.symbol)).Nodup := by
        have : (st.markets.zip passes).map (fun e => e.1.symbol)
            = ((st.markets.zip passes).map Prod.fst).map MarketInfo.symbol := by
          rw [List.map_map]
          rfl
        rw [this, z1]
        exact hsym
      obtain ⟨_, k2⟩ := w2 st1 h hnz2
      have hfind := k2 hnd e he
      subst hemi
      refine ⟨e.2, z2 e he, ((marketPass_spec _ _ _ _ _).1 e.2 (z2 e he)).2.2.2, ?_⟩
      rw [hfind]
      cases e.2.deals.getLast? with
      | none => exact findMarket_of_mem _ hsym _ hmi
      | some f => rfl

theorem EndBlocker_last_executed_price_witness :
    ∃ st1,
      EndBlocker (keepersWith [fillAtNine]) matchingCtx secondsParams
        (chainOf [liveBid, cheapAsk] [] 1546300800) = Except.ok st1 ∧
      findMarket st1.markets "abc/usd"
        = some { abcMarket with LastExecutedPrice := NewDec 9 } := by
  have hpass : (marketPass (keepersWith [fillAtNine]) matchingCtx secondsParams
      (chainOf [liveBid, cheapAsk] [] 1546300800).books abcMarket).toOption.map
        (fun r => r.deals) = some [fillAtNine] := by decide
  obtain ⟨_, hmain⟩ :=
    EndBlocker_last_executed_price (keepersWith [fillAtNine]) matchingCtx secondsParams
      (chainOf [liveBid, cheapAsk] [] 1546300800) (by decide) (by decide) (by
        intro mi hmi pass hp f hf
        have hmi2 : mi = abcMarket := by simpa [chainOf] using hmi
        subst hmi2
        rw [hp] at hpass
        simp only [Except.toOption, Option.map_some', Option.some.injEq] at hpass
        rw [hpass] at hf
        have hf2 : f = fillAtNine := by simpa using hf
        subst hf2
        decide)
  cases hE : EndBlocker (keepersWith [fillAtNine]) matchingCtx secondsParams
      (chainOf [liveBid, cheapAsk] [] 1546300800) with
  | error p =>
    have hsome : (EndBlocker (keepersWith [fillAtNine]) matchingCtx secondsParams
        (chainOf [liveBid, cheapAsk] [] 1546300800)).toOption.isSome = true := by decide
    rw [hE] at hsome
    exact absurd hsome (by simp [Except.toOption])
  | ok st1 =>
    obtain ⟨pass, hp, _, hfind⟩ := hmain st1 hE abcMarket (by simp [chainOf])
    rw [hp] at hpass
    simp only [Except.toOption, Option.map_some', Option.some.injEq] at hpass
    rw [hpass] at hfind
    exact ⟨st1, rfl, hfind⟩

/-! ## Housekeeping -/

theorem OrderMap.mem_delete (m : OrderMap) (k : AccAddress × Nat)
    (e : (AccAddress × Nat) × Order) (h : e ∈ m.delete k) : e ∈ m := by
  induction m with
  | nil => simp [OrderMap.delete] at h
  | cons p rest ih =>
    obtain ⟨k0, v0⟩ := p
    simp only [OrderMap.delete] at h
    split_ifs at h
    · exact List.mem_cons_of_mem _ (ih h)
    · rcases List.mem_cons.mp h with h1 | h1
      · rw [h1]; exact List.mem_cons_self _ _
      · exact List.mem_cons_of_mem _ (ih h1)

theorem removalCalls_no_send (filledFee : Order → Dec) (order : Order) (feeForZeroDeal : Int) :
    ∀ c ∈ removalCalls filledFee order feeForZeroDeal, c.isSendCoins = false := by
  intro c hc
  unfold removalCalls removeOrder unfreezeCoinsForOrder at hc
  simp only [emptyDriver, feeNeverFails, DriverState.Remove, List.nil_append] at hc
  by_cases h1 : order.Freeze ≠ 0 ∨ order.FrozenFee ≠ 0
  · simp only [if_pos h1] at hc
    cases hsplit : stringsSplit order.TradingPair with
    | nil => simp [hsplit] at hc
    | cons stock t =>
      cases t with
      | nil => simp [hsplit] at hc
      | cons money t2 =>
        simp only [hsplit] at hc
        by_cases hff : order.FrozenFee ≠ 0
        · simp only [if_pos hff, List.cons_append, List.nil_append, List.mem_cons,
            List.mem_singleton, List.not_mem_nil, or_false] at hc
          rcases hc with h | h | h <;> rw [h] <;> rfl
        · simp only [if_neg hff, List.mem_singleton] at hc
          rw [hc]; rfl
  · simp only [if_neg h1, List.not_mem_nil] at hc

/-- A `removeOrder` that returns leaves a book whose entries were there before and has
added no `SendCoins` call. -/
theorem removeOrder_frame (feeK : List KeeperCall → AccAddress → Int → Option String)
    (filledFee : Order → Dec) (d d1 : DriverState) (order : Order) (feeForZeroDeal : Int)
    (h : removeOrder feeK filledFee d order feeForZeroDeal = Except.ok d1) :
    (∀ e ∈ d1.book, e ∈ d.book) ∧
    (∀ c ∈ d1.calls, c ∈ d.calls ∨ c.isSendCoins = false) := by
  obtain ⟨h1, _, _⟩ := removeOrder_ok _ _ _ _ _ _ h
  have h2 := removeOrder_calls _ _ _ _ _ _ h
  constructor
  · intro e he
    rw [h1] at he
    exact OrderMap.mem_delete _ _ _ he
  · intro c hc
    rw [h2] at hc
    rcases List.mem_append.mp hc with hc | hc
    · exact Or.inl hc
    · exact Or.inr (removalCalls_no_send _ _ _ c hc)

theorem removeOrders_frame (feeK : List KeeperCall → AccAddress → Int → Option String)
    (filledFee : Order → Dec) (feeForZeroDeal : Int) :
    ∀ (orders : List Order) (d d1 : DriverState),
      removeOrders feeK filledFee feeForZeroDeal d orders = Except.ok d1 →
      (∀ e ∈ d1.book, e ∈ d.book) ∧
      (∀ c ∈ d1.calls, c ∈ d.calls ∨ c.isSendCoins = false) ∧
      d1.msgs = d.msgs := by
  intro orders
  induction orders with
  | nil =>
    intro d d1 h
    simp only [removeOrders] at h
    injection h with h
    subst h
    exact ⟨fun e he => he, fun c hc => Or.inl hc, rfl⟩
  | cons o rest ih =>
    intro d d1 h
    simp only [removeOrders] at h
    split at h
    · exact absurd h (by simp)
    · rename_i d2 hstep
      obtain ⟨f1, f2⟩ := removeOrder_frame _ _ _ _ _ _ hstep
      obtain ⟨_, _, f3⟩ := removeOrder_ok _ _ _ _ _ _ hstep
      obtain ⟨i1, i2, i3⟩ := ih d2 d1 h
      refine ⟨fun e he => f1 e (i1 e he), ?_, by rw [i3, f3]⟩
      intro c hc
      rcases i2 c hc with h1 | h1
      · exact f2 c h1
      · exact Or.inr h1

theorem removeExpiredOrders_frame
    (feeK : List KeeperCall → AccAddress → Int → Option String)
    (filledFee : Order → Dec) (subscribed : Bool) (height feeForZeroDeal : Int) :
    ∀ (orders : List Order) (d d1 : DriverState),
      removeExpiredOrders feeK filledFee subscribed height feeForZeroDeal d orders
        = Except.ok d1 →
      (∀ e ∈ d1.book, e ∈ d.book) ∧
      (∀ c ∈ d1.calls, c ∈ d.calls ∨ c.isSendCoins = false) := by
  intro orders
  induction orders with
  | nil =>
    intro d d1 h
    simp only [removeExpiredOrders] at h
    injection h with h
    subst h
    exact ⟨fun e he => he, fun c hc => Or.inl hc⟩
  | cons o rest ih =>
    intro d d1 h
    simp only [removeExpiredOrders] at h
    split at h
    · exact absurd h (by simp)
    · rename_i d2 hstep
      obtain ⟨f1, f2⟩ := removeOrder_frame _ _ _ _ _ _ hstep
      obtain ⟨i1, i2⟩ := ih _ d1 h
      constructor
      · intro e he
        have := i1 e he
        split_ifs at this
        · exact f1 e this
        · exact f1 e this
      · intro c hc
        rcases i2 c hc with h1 | h1
        · split_ifs at h1
          · exact f2 c h1
          · exact f2 c h1
        · exact Or.inr h1

theorem putDriver_frame (st : ChainState) (symbol : String) (d1 : DriverState)
    (hb : ∀ e ∈ d1.book, e ∈ (st.driver symbol).book) :
    ∀ s, ∀ e ∈ (st.putDriver symbol d1).books s, e ∈ st.books s := by
  intro s e he
  simp only [ChainState.putDriver] at he
  split_ifs at he with hs
  · subst hs
    exact hb e he
  · exact he

/-- The GTE sweep, when it returns, leaves clean time, fill messages, markets and delist
requests as they were, books whose entries were there before, and no new `SendCoins`. -/
theorem removeExpiredOrder_frame (feeK : List KeeperCall → AccAddress → Int → Option String)
    (filledFee : Order → Dec) (ctx : BlockCtx) (marketParams : Params) :
    ∀ (markets : List MarketInfo) (st st1 : ChainState),
      removeExpiredOrder feeK filledFee ctx marketParams markets st = Except.ok st1 →
      st1.cleanTime = st.cleanTime ∧ st1.fillMsgs = st.fillMsgs ∧
      st1.markets = st.markets ∧ st1.delists = st.delists ∧
      (∀ s, ∀ e ∈ st1.books s, e ∈ st.books s) ∧
      (∀ c ∈ st1.calls, c ∈ st.calls ∨ c.isSendCoins = false) := by
  intro markets
  induction markets with
  | nil =>
    intro st st1 h
    simp only [removeExpiredOrder] at h
    injection h with h
    subst h
    exact ⟨rfl, rfl, rfl, rfl, fun s e he => he, fun c hc => Or.inl hc⟩
  | cons mi rest ih =>
    intro st st1 h
    simp only [removeExpiredOrder] at h
    split at h
    · exact absurd h (by simp)
    · rename_i d1 hstep
      obtain ⟨f1, f2⟩ := removeExpiredOrders_frame _ _ _ _ _ _ _ _ hstep
      obtain ⟨i1, i2, i3, i4, i5, i6⟩ := ih _ st1 h
      refine ⟨i1, i2, i3, i4, ?_, ?_⟩
      · intro s e he
        exact putDriver_frame st mi.symbol d1 f1 s e (i5 s e he)
      · intro c hc
        rcases i6 c hc with h1 | h1
        · exact f2 c h1
        · exact Or.inr h1

/-- The delist loop, when it returns, leaves clean time, fill messages and delist requests
as they were, markets that were there before, books whose entries were there before, and
no new `SendCoins`. -/
theorem delistMarkets_frame (feeK : List KeeperCall → AccAddress → Int → Option String)
    (filledFee : Order → Dec) (ctx : BlockCtx) (marketParams : Params) :
    ∀ (symbols : List String) (st st1 : ChainState),
      delistMarkets feeK filledFee ctx marketParams symbols st = Except.ok st1 →
      st1.cleanTime = st.cleanTime ∧ st1.fillMsgs = st.fillMsgs ∧
      st1.delists = st.delists ∧
      (∀ m ∈ st1.markets, m ∈ st.markets) ∧
      (∀ s, ∀ e ∈ st1.books s, e ∈ st.books s) ∧
      (∀ c ∈ st1.calls, c ∈ st.calls ∨ c.isSendCoins = false) := by
  intro symbols
  induction symbols with
  | nil =>
    intro st st1 h
    simp only [delistMarkets] at h
    injection h with h
    subst h
    exact ⟨rfl, rfl, rfl, fun m hm => hm, fun s e he => he, fun c hc => Or.inl hc⟩
  | cons symbol rest ih =>
    intro st st1 h
    simp only [delistMarkets] at h
    split at h
    · exact absurd h (by simp)
    · rename_i d1 hstep
      obtain ⟨f1, f2, _⟩ := removeOrders_frame _ _ _ _ _ _ hstep
      obtain ⟨i1, i2, i3, i4, i5, i6⟩ := ih _ st1 h
      refine ⟨i1, i2, i3, ?_, ?_, ?_⟩
      · intro m hm
        have := i4 m hm
        exact (List.mem_filter.mp this).1
      · intro s e he
        exact putDriver_frame st symbol d1 f1 s e (i5 s e he)
      · intro c hc
        rcases i6 c hc with h1 | h1
        · exact f2 c h1
        · exact Or.inr h1

theorem GetOlderThan_mem (book : OrderMap) (height : Int) (o : Order)
    (h : o ∈ GetOlderThan book height) : ∃ e ∈ book, e.2 = o := by
  unfold GetOlderThan at h
  have h1 := (List.mem_filter.mp h).1
  obtain ⟨e, he, heq⟩ := List.mem_map.mp h1
  exact ⟨e, he, heq⟩

theorem filterOldOrders_mem (oldOrders : List Order) (currHeight lifeTime : Int) (o : Order)
    (h : o ∈ filterOldOrders oldOrders currHeight lifeTime) : o ∈ oldOrders := by
  unfold filterOldOrders at h
  rw [filterOldOrders_foldl] at h
  simp only [List.nil_append] at h
  exact (List.mem_filter.mp h).1

theorem removeOrders_returns (feeK : List KeeperCall → AccAddress → Int → Option String)
    (filledFee : Order → Dec) (feeForZeroDeal : Int)
    (hfee : ∀ calls a n, feeK calls a n = none) :
    ∀ (orders : List Order) (d : DriverState),
      (∀ o ∈ orders, ∃ stock money rest,
        stringsSplit o.TradingPair = stock :: money :: rest) →
      ∃ d1, removeOrders feeK filledFee feeForZeroDeal d orders = Except.ok d1 := by
  intro orders
  induction orders with
  | nil => intro d _; exact ⟨d, rfl⟩
  | cons o rest ih =>
    intro d hp
    obtain ⟨d2, h2⟩ := removeOrder_returns feeK filledFee d o feeForZeroDeal hfee
      (hp o (List.mem_cons_self _ _))
    obtain ⟨d1, h1⟩ := ih d2 (fun o2 ho2 => hp o2 (List.mem_cons_of_mem _ ho2))
    exact ⟨d1, by simp only [removeOrders, h2, h1]⟩

theorem removeExpiredOrders_returns
    (feeK : List KeeperCall → AccAddress → Int → Option String)
    (filledFee : Order → Dec) (subscribed : Bool) (height feeForZeroDeal : Int)
    (hfee : ∀ calls a n, feeK calls a n = none) :
    ∀ (orders : List Order) (d : DriverState),
      (∀ o ∈ orders, ∃ stock money rest,
        stringsSplit o.TradingPair = stock :: money :: rest) →
      ∃ d1, removeExpiredOrders feeK filledFee subscribed height feeForZeroDeal d orders
        = Except.ok d1 := by
  intro orders
  induction orders with
  | nil => intro d _; exact ⟨d, rfl⟩
  | cons o rest ih =>
    intro d hp
    obtain ⟨d2, h2⟩ := removeOrder_returns feeK filledFee d o feeForZeroDeal hfee
      (hp o (List.mem_cons_self _ _))
    obtain ⟨d1, h1⟩ := ih
      (if subscribed then
        { d2 with
          msgs := d2.msgs ++
            [ { OrderID := o.OrderID
                TradingPair := o.TradingPair
                Height := height
                Side := o.Side
                Price := o.Price
                DelReason := DelReason.CancelOrderByGteTimeOut
                UsedCommission := (CalOrderFee filledFee o feeForZeroDeal).RoundInt64
                LeftStock := o.LeftStock
                RemainAmount := o.Freeze
                DealStock := o.DealStock
                DealMoney := o.DealMoney } ] }
      else d2)
      (fun o2 ho2 => hp o2 (List.mem_cons_of_mem _ ho2))
    exact ⟨d1, by simp only [removeExpiredOrders, h2, h1]⟩

theorem removeExpiredOrder_returns (feeK : List KeeperCall → AccAddress → Int → Option String)
    (filledFee : Order → Dec) (ctx : BlockCtx) (marketParams : Params)
    (hfee : ∀ calls a n, feeK calls a n = none) :
    ∀ (markets : List MarketInfo) (st : ChainState),
      (∀ s, ∀ e ∈ st.books s, ∃ stock money rest,
        stringsSplit e.2.TradingPair = stock :: money :: rest) →
      ∃ st1, removeExpiredOrder feeK filledFee ctx marketParams markets st = Except.ok st1 := by
  intro markets
  induction markets with
  | nil => intro st _; exact ⟨st, rfl⟩
  | cons mi rest ih =>
    intro st hp
    obtain ⟨d1, h1⟩ := removeExpiredOrders_returns feeK filledFee ctx.subscribed ctx.height
      marketParams.FeeForZeroDeal hfee
      (filterOldOrders
        (GetOlderThan (st.driver mi.symbol).book (ctx.height - marketParams.GTEOrderLifetime))
        ctx.height marketParams.GTEOrderLifetime)
      (st.driver mi.symbol) (by
        intro o ho
        obtain ⟨e, he, heq⟩ := GetOlderThan_mem _ _ _ (filterOldOrders_mem _ _ _ _ ho)
        rw [← heq]
        exact hp mi.symbol e he)
    obtain ⟨f1, _⟩ := removeExpiredOrders_frame _ _ _ _ _ _ _ _ h1
    obtain ⟨st1, h2⟩ := ih (st.putDriver mi.symbol d1)
      (fun s e he => hp s e (putDriver_frame st mi.symbol d1 f1 s e he))
    exact ⟨st1, by simp only [removeExpiredOrder, h1, h2]⟩

theorem delistMarkets_returns (feeK : List KeeperCall → AccAddress → Int → Option String)
    (filledFee : Order → Dec) (ctx : BlockCtx) (marketParams : Params)
    (hfee : ∀ calls a n, feeK calls a n = none) :
    ∀ (symbols : List String) (st : ChainState),
      (∀ s, ∀ e ∈ st.books s, ∃ stock money rest,
        stringsSplit e.2.TradingPair = stock :: money :: rest) →
      ∃ st1, delistMarkets feeK filledFee ctx marketParams symbols st = Except.ok st1 := by
  intro symbols
  induction symbols with
  | nil => intro st _; exact ⟨st, rfl⟩
  | cons symbol rest ih =>
    intro st hp
    obtain ⟨d1, h1⟩ := removeOrders_returns feeK filledFee marketParams.FeeForZeroDeal hfee
      (GetOlderThan (st.driver symbol).book (ctx.height + 1)) (st.driver symbol) (by
        intro o ho
        obtain ⟨e, he, heq⟩ := GetOlderThan_mem _ _ _ ho
        rw [← heq]
        exact hp symbol e he)
    obtain ⟨f1, _, _⟩ := removeOrders_frame _ _ _ _ _ _ h1
    obtain ⟨st1, h2⟩ := ih
      { st.putDriver symbol d1 with
        markets := RemoveMarket (st.putDriver symbol d1).markets symbol }
      (fun s e he => hp s e (putDriver_frame st symbol d1 f1 s e he))
    exact ⟨st1, by simp only [delistMarkets, removeOrderOlderThan, h1, h2]⟩

/-- C11: when `EndBlocker` enters housekeeping it sets the clean time to the block time,
runs the GTE sweep and then the delist sweep, and returns: the matcher is not run.  A
housekeeping block that returns has sent no fill message and made no `SendCoins` call (no
`Deal`), every order entry of a book after the block is an entry of that book before it (no
`LeftStock`, `Freeze`, `DealStock` or `DealMoney` changes), and every market stored after
the block is a market stored before it (no `LastExecutedPrice` changes).  The block returns
when the fee keeper does not fail and the trading pairs are well-formed. -/
theorem housekeeping_excludes_matching (ks : Keepers) (ctx : BlockCtx) (marketParams : Params)
    (st : ChainState)
    (hneed : needRemove ks.zone ctx.integrationNet st.cleanTime ctx.time = true) :
    EndBlocker ks ctx marketParams st =
      (match removeExpiredOrder ks.feeK ks.filledFee ctx marketParams st.markets
          { st with cleanTime := ctx.time } with
        | Except.error p => Except.error p
        | Except.ok st1 => removeExpiredMarket ks.feeK ks.filledFee ctx marketParams st1) ∧
    (∀ st1, EndBlocker ks ctx marketParams st = Except.ok st1 →
      st1.cleanTime = ctx.time ∧
      st1.fillMsgs = st.fillMsgs ∧
      (∀ c ∈ st1.calls, c ∈ st.calls ∨ c.isSendCoins = false) ∧
      (∀ s, ∀ e ∈ st1.books s, e ∈ st.books s) ∧
      (∀ m ∈ st1.markets, m ∈ st.markets)) ∧
    ((∀ calls a n, ks.feeK calls a n = none) →
      (∀ s, ∀ e ∈ st.books s, ∃ stock money rest,
        stringsSplit e.2.TradingPair = stock :: money :: rest) →
      ∃ st1, EndBlocker ks ctx marketParams st = Except.ok st1) := by
  have hE : EndBlocker ks ctx marketParams st =
      (match removeExpiredOrder ks.feeK ks.filledFee ctx marketParams st.markets
          { st with cleanTime := ctx.time } with
        | Except.error p => Except.error p
        | Except.ok st1 => removeExpiredMarket ks.feeK ks.filledFee ctx marketParams st1) := by
    unfold EndBlocker
    rw [if_pos hneed]
    rfl
  refine ⟨hE, ?_, ?_⟩
  · intro st1 h
    rw [hE] at h
    split at h
    · exact absurd h (by simp)
    · rename_i st2 h2
      obtain ⟨a1, a2, a3, _, a5, a6⟩ := removeExpiredOrder_frame _ _ _ _ _ _ _ h2
      unfold removeExpiredMarket at h
      simp only [] at h
      split at h
      · exact absurd h (by simp)
      · rename_i st3 h3
        injection h with h
        subst h
        obtain ⟨b1, b2, _, b4, b5, b6⟩ := delistMarkets_frame _ _ _ _ _ _ _ h3
        refine ⟨by rw [b1, a1], by rw [b2, a2], ?_, ?_, ?_⟩
        · intro c hc
          rcases b6 c hc with h1 | h1
          · exact a6 c h1
          · exact Or.inr h1
        · intro s e he
          exact a5 s e (b5 s e he)
        · intro m hm
          have := b4 m hm
          rw [a3] at this
          exact this
  · intro hfee hp
    rw [hE]
    obtain ⟨st2, h2⟩ := removeExpiredOrder_returns ks.feeK ks.filledFee ctx marketParams hfee
      st.markets { st with cleanTime := ctx.time } hp
    obtain ⟨_, _, _, _, a5, _⟩ := removeExpiredOrder_frame _ _ _ _ _ _ _ h2
    obtain ⟨st3, h3⟩ := delistMarkets_returns ks.feeK ks.filledFee ctx marketParams hfee
      (GetDelistSymbolsBeforeTime st2.delists
        (ctx.time - marketParams.MarketMinExpiredTime + 1))
      st2 (fun s e he => hp s e (a5 s e he))
    exact ⟨_, by simp only [h2, removeExpiredMarket, h3]; rfl⟩

theorem housekeeping_excludes_matching_witness :
    ∃ st1,
      EndBlocker (keepersWith [fillAtNine]) housekeepingCtx secondsParams
        (chainOf [liveBid, cheapAsk] [] 1546300800) = Except.ok st1 ∧
      st1.cleanTime = housekeepingCtx.time ∧
      st1.fillMsgs = [] ∧
      (∀ e ∈ st1.books "abc/usd",
        e ∈ [(liveBid.OrderID, liveBid), (cheapAsk.OrderID, cheapAsk)]) ∧
      (∀ m ∈ st1.markets, m ∈ [abcMarket]) := by
  obtain ⟨_, hframe, hret⟩ :=
    housekeeping_excludes_matching (keepersWith [fillAtNine]) housekeepingCtx secondsParams
      (chainOf [liveBid, cheapAsk] [] 1546300800) (by decide)
  obtain ⟨st1, h⟩ := hret (fun _ _ _ => rfl) (by
    intro s e he
    simp only [chainOf] at he
    split_ifs at he
    · simp only [List.map_cons, List.map_nil, List.mem_cons, List.mem_singleton,
        List.not_mem_nil, or_false] at he
      have hsplit : stringsSplit e.2.TradingPair = ["abc", "usd"] := by
        rcases he with h | h <;> rw [h] <;> decide
      exact ⟨"abc", "usd", [], hsplit⟩
    · exact absurd he (List.not_mem_nil _))
  obtain ⟨c1, c2, _, c4, c5⟩ := hframe st1 h
  exact ⟨st1, h, c1, c2, c4 "abc/usd", c5⟩

end Market
